import Mathlib

/-!
# plotty: line parser, sample ring buffer and windowed rendering

A shallow embedding of `src/plotty.c`.

* C strings are `List Char`: the list ends where the terminating NUL is, so
  `*next` is `next.head?` and `*next == NUL` is `next = []`.
* Pointers into one string are suffixes of it, so `next == cursor` is equality of the
  remaining lengths.
* `uint64_t` values are naturals below `2 ^ 64`, with the wrap-around written out.
* `int` values that index the buffers are naturals: they stay below
  `max_sample_count * max_channels`, and the loop bound `sample_cursor + max_sample_count`
  stays below twice the capacity, so the model covers every capacity for which that sum
  is an `int` (the C code has undefined behaviour above it).
* `float` sample values are an abstract type `F` wherever the code only stores and copies
  them; the numeric conversion done by `strtof` is the parameter `conv`, applied to the
  subject sequence that `strtof` recognises.
* Where the code computes with `float` (the ordinate of lines 241-243) the values are
  `F32`, binary32 numbers with every operation rounded to nearest, ties to even, as
  `float` arithmetic is on a target that evaluates `float` expressions in binary32.
-/

namespace Plotty

/-! ## The C library functions used by the parser -/

/-- The `isspace` class of the C locale: space, `\t`, `\n`, `\v`, `\f`, `\r`. -/
def isspace (c : Char) : Bool :=
  c.toNat = 32 || (9 ≤ c.toNat && c.toNat ≤ 13)

/-- The `isdigit` class: `0` to `9`. -/
def isdigit (c : Char) : Bool :=
  48 ≤ c.toNat && c.toNat ≤ 57

/-- The `isxdigit` class: `0`-`9`, `a`-`f`, `A`-`F`. -/
def isxdigit (c : Char) : Bool :=
  isdigit c || (97 ≤ c.toNat && c.toNat ≤ 102) || (65 ≤ c.toNat && c.toNat ≤ 70)

/-- The characters of an n-char-sequence (`NAN(...)`): digits, letters and underscore. -/
def isnchar (c : Char) : Bool :=
  isdigit c || (97 ≤ c.toNat && c.toNat ≤ 122) || (65 ≤ c.toNat && c.toNat ≤ 90) ||
    c.toNat = 95

/-- ASCII `tolower`. -/
def tolower (c : Char) : Char :=
  if 65 ≤ c.toNat ∧ c.toNat ≤ 90 then Char.ofNat (c.toNat + 32) else c

/-- Value of a run of decimal digits. -/
def digitsValue (ds : List Char) : Nat :=
  ds.foldl (fun acc c => 10 * acc + (c.toNat - 48)) 0

/-- Split an optional sign off a string: the sign characters read, whether it was `-`,
and the rest. -/
def takeSign (s : List Char) : List Char × Bool × List Char :=
  match s with
  | c :: r =>
    if c.toNat = 45 then ([c], true, r)
    else if c.toNat = 43 then ([c], false, r)
    else ([], false, s)
  | [] => ([], false, s)

def LLONG_MAX : Int := 2 ^ 63 - 1

def LLONG_MIN : Int := -(2 ^ 63)

/-- The call `strtoll(nptr, &next, 10)`: white space is skipped, then an optional sign and
the longest run of decimal digits are read. The result is the value, clamped to
`[LLONG_MIN, LLONG_MAX]`, and `next`. With no digit there is no conversion: the value is
`0` and `next` is `nptr`. -/
def strtoll (nptr : List Char) : Int × List Char :=
  let s := nptr.dropWhile isspace
  let sg := takeSign s
  let ds := sg.2.2.takeWhile isdigit
  if ds = [] then (0, nptr)
  else
    let v : Int := if sg.2.1 then -(digitsValue ds : Int) else (digitsValue ds : Int)
    (max LLONG_MIN (min LLONG_MAX v), sg.2.2.dropWhile isdigit)

/-- An exponent part starting at `r`: the marker (`e` or `E` for decimal, `p` or `P` for
hexadecimal, given in lower case as `mark`), an optional sign and at least one decimal
digit. The characters of the exponent part, `[]` when there is none. -/
def exponentPart (mark : Char) (r : List Char) : List Char :=
  match r with
  | c :: r1 =>
    if tolower c = mark then
      let sg := takeSign r1
      let ds := sg.2.2.takeWhile isdigit
      if ds = [] then [] else c :: (sg.1 ++ ds)
    else []
  | [] => []

/-- The longest prefix of `s` that is a digit sequence (digits by `dig`) optionally
containing a radix character, with at least one digit, followed by an optional exponent
part. `[]` when there is no digit. -/
def numberSubject (dig : Char → Bool) (mark : Char) (s : List Char) : List Char :=
  let ip := s.takeWhile dig
  let r1 := s.dropWhile dig
  let fp : List Char :=
    match r1 with
    | c :: r => if c.toNat = 46 then c :: r.takeWhile dig else []
    | [] => []
  let r2 := r1.drop fp.length
  if ip = [] ∧ fp.length ≤ 1 then []
  else ip ++ fp ++ exponentPart mark r2

/-- Whether `s` starts with the lower-case word `w`, ignoring case in `s`. -/
def startsWithNoCase (w s : List Char) : Bool :=
  (s.take w.length).map tolower = w

/-- The `INF`, `INFINITY`, `NAN` and `NAN(n-char-sequence)` subjects, ignoring case. -/
def specialSubject (s : List Char) : List Char :=
  if startsWithNoCase ['i', 'n', 'f', 'i', 'n', 'i', 't', 'y'] s then s.take 8
  else if startsWithNoCase ['i', 'n', 'f'] s then s.take 3
  else if startsWithNoCase ['n', 'a', 'n'] s then
    match s.drop 3 with
    | c :: r =>
      if c.toNat = 40 then
        match r.dropWhile isnchar with
        | d :: _ =>
          if d.toNat = 41 then s.take (3 + 1 + (r.takeWhile isnchar).length + 1)
          else s.take 3
        | [] => s.take 3
      else s.take 3
    | [] => s.take 3
  else []

/-- The hexadecimal subject: `0x` or `0X`, then a hexadecimal number with an optional
binary exponent. `[]` when `s` does not start with such a number. -/
def hexSubject (s : List Char) : List Char :=
  match s with
  | c0 :: c1 :: r =>
    if c0.toNat = 48 ∧ tolower c1 = 'x' then
      let h := numberSubject isxdigit 'p' r
      if h = [] then [] else c0 :: c1 :: h
    else []
  | _ => []

/-- The call `strtof(nptr, &next)`: white space is skipped, then the longest prefix that
is an optionally signed infinity, NaN, hexadecimal or decimal floating-point number is
read. The result is that subject sequence (sign included) and `next`. With no such
prefix there is no conversion: the subject is `[]` and `next` is `nptr`. -/
def strtof (nptr : List Char) : List Char × List Char :=
  let s := nptr.dropWhile isspace
  let sg := takeSign s
  let body :=
    let sp := specialSubject sg.2.2
    if sp ≠ [] then sp
    else
      let hx := hexSubject sg.2.2
      if hx ≠ [] then hx else numberSubject isdigit 'e' sg.2.2
  if body = [] then ([], nptr)
  else (sg.1 ++ body, sg.2.2.drop body.length)

/-! ## The line parser -/

/-- What `parse_channel_data` leaves in `*timestamp`, in `output[0 .. *output_count)` and
in `*output_count` (the length of `output`). -/
structure ParseResult (F : Type) where
  timestamp : Nat
  output : List F

/-- The final value of `*output_count`. -/
def ParseResult.output_count {F : Type} (r : ParseResult F) : Nat :=
  r.output.length

/-- The value loop of `parse_channel_data`, with `n` iterations left
(`max_channels - i`): each iteration converts one value with `strtof`, stops without
counting it when nothing was converted, and goes on only after a `;`. -/
def parseValues {F : Type} (conv : List Char → F) : Nat → List Char → List F
  | 0, _ => []
  | n + 1, cursor =>
    let r := strtof cursor
    if r.2.length = cursor.length then []
    else
      conv r.1 ::
        (match r.2 with
         | c :: rest => if c.toNat = 59 then parseValues conv n rest else []
         | [] => [])

/-- The function `parse_channel_data(data, &timestamp, output, &output_count,
max_channels)`. The timestamp is the `strtoll` result converted to `uint64_t`; it is
stored before the checks for a converted integer and for the `:`. -/
def parse_channel_data {F : Type} (conv : List Char → F) (data : List Char)
    (max_channels : Nat) : ParseResult F :=
  let r := strtoll data
  let timestamp := (r.1 % 2 ^ 64).toNat
  if r.2.length = data.length then ⟨timestamp, []⟩
  else
    match r.2 with
    | c :: rest =>
      if c.toNat = 58 then ⟨timestamp, parseValues conv max_channels rest⟩
      else ⟨timestamp, []⟩
    | [] => ⟨timestamp, []⟩

/-! ## The sample ring buffer and the ingestion loop -/

/-- The mutable state of `main` that the ingestion loop writes: the two buffers (with
whatever `malloc` left in them at the start) and the write cursor. -/
structure PlotState (F : Type) where
  sample_value_buffer : Nat → F
  sample_timestamp_buffer : Nat → Nat
  sample_cursor : Nat

/-- Lines 179-182, from channel `c` on:
`sample_value_buffer[c * max_sample_count + sample_cursor] = channels[c]` for every `c`
below `channel_count` (the length of `channels`). -/
def storeChannels {F : Type} (max_sample_count sample_cursor : Nat) :
    Nat → List F → (Nat → F) → (Nat → F)
  | _, [], buf => buf
  | c, v :: vs, buf =>
    storeChannels max_sample_count sample_cursor (c + 1) vs
      (Function.update buf (c * max_sample_count + sample_cursor) v)

/-- Lines 179-185: store the channel values and the timestamp at the write cursor, then
advance the cursor modulo the capacity. -/
def commitSample {F : Type} (max_sample_count : Nat) (st : PlotState F) (timestamp : Nat)
    (channels : List F) : PlotState F :=
  { sample_value_buffer :=
      storeChannels max_sample_count st.sample_cursor 0 channels st.sample_value_buffer
    sample_timestamp_buffer :=
      Function.update st.sample_timestamp_buffer st.sample_cursor timestamp
    sample_cursor := (st.sample_cursor + 1) % max_sample_count }

/-- One iteration of the ingestion loop (lines 164-186), `buf` being the bytes that `read`
returned. The result is the new state and whether the loop goes on (`false` is `break`). -/
def ingestStep {F : Type} (conv : List Char → F) (max_sample_count max_channels : Nat)
    (paused : Bool) (st : PlotState F) (buf : List Char) : PlotState F × Bool :=
  if buf.length = 0 then (st, false)
  else if paused then (st, true)
  else
    let r := parse_channel_data conv buf max_channels
    if r.timestamp = 0 then (st, false)
    else (commitSample max_sample_count st r.timestamp r.output, true)

/-- The ingestion loop of one frame (lines 163-187), with `n` iterations left
(`max_samples_per_frame - i`); `reads` is what the successive `read` calls return, and a
`read` past its end returns no byte. -/
def ingestFrame {F : Type} (conv : List Char → F) (max_sample_count max_channels : Nat)
    (paused : Bool) : Nat → PlotState F → List (List Char) → PlotState F
  | 0, st, _ => st
  | _ + 1, st, [] => st
  | n + 1, st, buf :: reads =>
    let r := ingestStep conv max_sample_count max_channels paused st buf
    if r.2 then ingestFrame conv max_sample_count max_channels paused n r.1 reads
    else r.1

/-- The sample stored in a slot: its timestamp and its `max_channels` values. -/
def sampleAt {F : Type} (max_sample_count max_channels : Nat) (st : PlotState F)
    (slot : Nat) : Nat × List F :=
  (st.sample_timestamp_buffer slot,
    (List.range max_channels).map
      (fun c => st.sample_value_buffer (c * max_sample_count + slot)))

/-! ## The render pass -/

/-- Subtraction of `uint64_t` values. -/
def sub64 (a b : Nat) : Nat :=
  (a + (2 ^ 64 - b % 2 ^ 64)) % 2 ^ 64

/-- Lines 196-198: `now` is the timestamp in the slot before the write cursor. -/
def nowOf {F : Type} (max_sample_count : Nat) (st : PlotState F) : Nat :=
  st.sample_timestamp_buffer
    ((st.sample_cursor + max_sample_count - 1) % max_sample_count)

/-- Conversion of an `int` to `uint64_t`. -/
def toU64 (i : Int) : Nat :=
  (i % 2 ^ 64).toNat

/-- Conversion of a `uint64_t` to `int`: the low 32 bits, in two's complement. -/
def toInt32 (n : Nat) : Int :=
  if n % 2 ^ 32 < 2 ^ 31 then (n % 2 ^ 32 : Nat) else ((n % 2 ^ 32 : Nat) : Int) - 2 ^ 32

/-- Lines 239-240: `int x = view_width - (now - t) * view_width / display_period`, computed
in `uint64_t` and converted to `int`. There is no result when `display_period` is `0`:
the division traps. -/
def xCoord (view_width : Int) (now t display_period : Nat) : Option Int :=
  if display_period = 0 then none
  else
    some (toInt32 (sub64 (toU64 view_width)
      ((sub64 now t * toU64 view_width) % 2 ^ 64 / display_period)))

/-! ## Binary32 arithmetic and the ordinate -/

/-- The position of the highest set bit of `k`, found in at most `fuel` halvings. -/
def log2Fuel : Nat → Nat → Nat
  | 0, _ => 0
  | fuel + 1, k => if 2 ≤ k then log2Fuel fuel (k / 2) + 1 else 0

/-- The position of the highest set bit of `n` (`0` for `0`): `n` has `log2Floor n + 1`
bits. -/
def log2Floor (n : Nat) : Nat :=
  log2Fuel n n

/-- A binary32 value (`float`): a zero with its sign, a finite non-zero number
`(-1)^neg * m * 2^e`, an infinity with its sign, or a NaN. -/
inductive F32 where
  | zero (neg : Bool)
  | num (neg : Bool) (m : Nat) (e : Int)
  | inf (neg : Bool)
  | nan
  deriving DecidableEq

/-- The value is one that binary32 has: for a finite non-zero number, a significand of at
most 24 bits, an exponent of the last bit of at least `-149`, and a magnitude below
`2 ^ 128`. -/
def F32.wf : F32 → Bool
  | .num _ m e =>
    decide (0 < m) && decide (m < 2 ^ 24) && decide (-149 ≤ e) &&
      decide (e + (log2Floor m : Int) + 1 ≤ 128)
  | _ => true

/-- Zero or a finite non-zero number. -/
def F32.isFinite : F32 → Bool
  | .zero _ => true
  | .num _ _ _ => true
  | _ => false

/-- A finite non-zero number or an infinity. -/
def F32.isNonzero : F32 → Bool
  | .num _ m _ => decide (0 < m)
  | .inf _ => true
  | _ => false

/-- The sign bit. -/
def F32.sign : F32 → Bool
  | .zero neg => neg
  | .num neg _ _ => neg
  | .inf neg => neg
  | .nan => false

/-- The exact dyadic number `m * 2^e` with sign `neg`, after rounding and overflow: `0`
where `m` is `0`, an infinity from `2 ^ 128` on; a significand of `2 ^ 24` (a rounding
that carried) is written with 24 bits. -/
def F32.pack (neg : Bool) (m : Nat) (e : Int) : F32 :=
  if m = 0 then .zero neg
  else if e ≥ 0 ∧ m * 2 ^ e.toNat ≥ 2 ^ 128 then .inf neg
  else if m = 2 ^ 24 then .num neg (2 ^ 23) (e + 1)
  else .num neg m e

/-- Rounding of the exact dyadic number `m * 2^e` with sign `neg` to binary32, to nearest
with ties to even: the bits below 24 significant ones, and those below `2 ^ -149`, are
dropped. -/
def roundF32 (neg : Bool) (m : Nat) (e : Int) : F32 :=
  let s : Int := max ((log2Floor m : Int) + 1 - 24) (-149 - e)
  if s ≤ 0 then F32.pack neg m e
  else
    let q := m / 2 ^ s.toNat
    let r := m % 2 ^ s.toNat
    let q1 := if 2 * r > 2 ^ s.toNat ∨ (2 * r = 2 ^ s.toNat ∧ q % 2 = 1) then q + 1 else q
    F32.pack neg q1 (e + s)

/-- The exponent of the last bit of a finite non-zero number. -/
def F32.expo : F32 → Option Int
  | .num _ _ e => some e
  | _ => none

/-- The integer `A` with value `A * 2^e`, for a finite value whose last bit is at `e`
or above. -/
def F32.scaled (e : Int) : F32 → Int
  | .num neg m e1 => if neg then -((m * 2 ^ (e1 - e).toNat : Nat) : Int)
      else ((m * 2 ^ (e1 - e).toNat : Nat) : Int)
  | _ => 0

/-- The smaller of the exponents of two finite values, a zero having none. -/
def F32.commonExpo (a b : F32) : Int :=
  match a.expo, b.expo with
  | some e1, some e2 => min e1 e2
  | some e1, none => e1
  | none, some e2 => e2
  | none, none => 0

/-- The `float` constant `1.0f`. -/
def F32.one : F32 := .num false 1 0

/-- Negation: the sign bit is flipped. -/
def F32.neg : F32 → F32
  | .zero neg => .zero (!neg)
  | .num neg m e => .num (!neg) m e
  | .inf neg => .inf (!neg)
  | .nan => .nan

/-- Subtraction `a - b` in binary32. -/
def F32.sub (a b : F32) : F32 :=
  match a, b with
  | .nan, _ => .nan
  | _, .nan => .nan
  | .inf s1, .inf s2 => if s1 = s2 then .nan else .inf s1
  | .inf s1, _ => .inf s1
  | _, .inf s2 => .inf (!s2)
  | .zero s1, .zero s2 => .zero (s1 && !s2)
  | a, b =>
    let e := F32.commonExpo a b
    let d := F32.scaled e a - F32.scaled e b
    if d = 0 then .zero false else roundF32 (decide (d < 0)) d.natAbs e

/-- Multiplication `a * b` in binary32. -/
def F32.mul (a b : F32) : F32 :=
  match a, b with
  | .nan, _ => .nan
  | _, .nan => .nan
  | .inf _, .zero _ => .nan
  | .zero _, .inf _ => .nan
  | .inf s1, b => .inf (xor s1 b.sign)
  | a, .inf s2 => .inf (xor a.sign s2)
  | .zero s1, b => .zero (xor s1 b.sign)
  | a, .zero s2 => .zero (xor a.sign s2)
  | .num s1 m1 e1, .num s2 m2 e2 => roundF32 (xor s1 s2) (m1 * m2) (e1 + e2)

/-- Division `a / b` in binary32. The quotient of the significands is taken with at
least 26 bits and a sticky bit for the remainder, which rounds as the exact quotient. -/
def F32.div (a b : F32) : F32 :=
  match a, b with
  | .nan, _ => .nan
  | _, .nan => .nan
  | .inf _, .inf _ => .nan
  | .inf s1, b => .inf (xor s1 b.sign)
  | a, .inf s2 => .zero (xor a.sign s2)
  | .zero _, .zero _ => .nan
  | .zero s1, b => .zero (xor s1 b.sign)
  | a, .zero s2 => .inf (xor a.sign s2)
  | .num s1 m1 e1, .num s2 m2 e2 =>
    let k := 27 + log2Floor m2
    let q := m1 * 2 ^ k / m2
    let r := m1 * 2 ^ k % m2
    roundF32 (xor s1 s2) (2 * q + (if r = 0 then 0 else 1)) (e1 - e2 - (k : Int) - 1)

/-- Conversion of an `int` to `float`. -/
def F32.ofInt (n : Int) : F32 :=
  if n = 0 then .zero false else roundF32 (decide (n < 0)) n.natAbs 0

/-- Conversion of a `float` to `int`: the fraction is discarded; there is no result
(the behaviour is undefined) for a NaN, an infinity or a value outside the range of
`int`. -/
def F32.toInt : F32 → Option Int
  | .zero _ => some 0
  | .num neg m e =>
    let t : Nat := if e ≥ 0 then m * 2 ^ e.toNat else m / 2 ^ (-e).toNat
    let v : Int := if neg then -(t : Int) else (t : Int)
    if -(2 ^ 31) ≤ v ∧ v < 2 ^ 31 then some v else none
  | _ => none

/-- The comparison `a == b` of two `float` values. -/
def F32.eq (a b : F32) : Bool :=
  match a, b with
  | .nan, _ => false
  | _, .nan => false
  | .inf s1, .inf s2 => s1 = s2
  | .inf _, _ => false
  | _, .inf _ => false
  | a, b => F32.scaled (F32.commonExpo a b) a = F32.scaled (F32.commonExpo a b) b

/-- Lines 241-243: `int y = (1.0f - (v - value_lower) / (value_upper - value_lower)) *
view_height`, every operation rounded to binary32, `view_height` converted to `float`,
and the product converted to `int`. There is no result where that last conversion has
none. -/
def yCoord (v value_lower value_upper : F32) (view_height : Int) : Option Int :=
  F32.toInt (F32.mul
    (F32.sub F32.one (F32.div (F32.sub v value_lower) (F32.sub value_upper value_lower)))
    (F32.ofInt view_height))

/-! ## The abscissa held in a `float` and the channel pass -/

/-- The value of `(float) n` for an `int` `n`: `n` itself up to `2 ^ 24` in magnitude,
beyond that `n` rounded to 24 significant bits, ties to even. -/
def floatOfInt (n : Int) : Int :=
  let a := n.natAbs
  if a < 2 ^ 24 then n
  else
    let e := Nat.log2 a - 23
    let q := a / 2 ^ e
    let r := a % 2 ^ e
    let q1 := if 2 * r > 2 ^ e ∨ (2 * r = 2 ^ e ∧ q % 2 = 1) then q + 1 else q
    if n < 0 then -((q1 * 2 ^ e : Nat) : Int) else ((q1 * 2 ^ e : Nat) : Int)

/-- Lines 210-213: the pointer column, clamped to the viewport. -/
def clampMouse (mouse_x view_offset_x view_width : Int) : Int :=
  let m := if mouse_x < view_offset_x then view_offset_x else mouse_x
  if m > view_offset_x + view_width then view_offset_x + view_width else m

/-- The locals of one channel pass that later iterations read: `lx` (a `float` that holds
`0` or a converted `x`), `pc`, and `highligted_channel_values[c]`; and what the pass has
done so far: the slots `si` it has looked at (line 232) and the slots that got past the
`continue` of line 234 and were drawn, both in the order walked. The ordinate and the
drawing calls write nothing that the pass reads. -/
structure ChannelPass (F : Type) where
  lx : Int
  pc : Nat
  highlighted : F
  considered : List Nat
  selected : List Nat

/-- Lines 236-260 for one sample that got past the filter: map it to `x`, set the
highlighted value when `lx < mouse_x - view_offset_x` (compared as `float`) and
`x >= mouse_x - view_offset_x` or the sample is the one at `now`, then remember `x`. `p`
is `mouse_x - view_offset_x`. No result when the division traps. -/
def renderSample {F : Type} (view_width p : Int) (now display_period : Nat) (si t : Nat)
    (v : F) (acc : ChannelPass F) : Option (ChannelPass F) :=
  match xCoord view_width now t display_period with
  | none => none
  | some x =>
    some
      { lx := floatOfInt x
        pc := acc.pc + 1
        highlighted :=
          if acc.lx < floatOfInt p ∧ (x ≥ p ∨ t = now) then v else acc.highlighted
        considered := acc.considered
        selected := acc.selected ++ [si] }

/-- Lines 230-261 for channel `c`: the loop over `s`, with `n` iterations left. Each
iteration looks at slot `si = s % max_sample_count`, skips it when
`now - sample_timestamp_buffer[si] > display_period`, and otherwise maps and draws the
sample. No result when the division of line 240 traps: the pass ends there. -/
def renderLoop {F : Type} (max_sample_count : Nat) (st : PlotState F) (c : Nat)
    (view_width p : Int) (now display_period : Nat) :
    Nat → Nat → ChannelPass F → Option (ChannelPass F)
  | 0, _, acc => some acc
  | n + 1, s, acc =>
    let si := s % max_sample_count
    if sub64 now (st.sample_timestamp_buffer si) > display_period then
      renderLoop max_sample_count st c view_width p now display_period n (s + 1)
        { acc with considered := acc.considered ++ [si] }
    else
      match renderSample view_width p now display_period si (st.sample_timestamp_buffer si)
          (st.sample_value_buffer (c * max_sample_count + si))
          { acc with considered := acc.considered ++ [si] } with
      | none => none
      | some acc1 =>
        renderLoop max_sample_count st c view_width p now display_period n (s + 1) acc1

/-- Lines 225-261 for channel `c`: the pass over the whole buffer from the write cursor.
`zero` is the `0` that `highligted_channel_values[c]` starts from. -/
def renderChannel {F : Type} (max_sample_count : Nat) (st : PlotState F) (c : Nat)
    (view_width p : Int) (display_period : Nat) (zero : F) : Option (ChannelPass F) :=
  renderLoop max_sample_count st c view_width p (nowOf max_sample_count st) display_period
    max_sample_count st.sample_cursor ⟨0, 0, zero, [], []⟩

/-! ## Well-formed records -/

/-- The exponent of a decimal floating-point literal: the marker `e` or `E`, an optional
sign and the digits. -/
structure ExpLiteral where
  marker : Char
  sign : List Char
  digits : List Char

/-- A decimal floating-point literal, by its parts: an optional sign, the digits before
the point, the digits after the point when there is a point, and the exponent when there
is one. -/
structure FloatLiteral where
  sign : List Char
  intPart : List Char
  fracPart : Option (List Char)
  expPart : Option ExpLiteral

/-- An optional sign: nothing, `+` or `-`. -/
def isSignText (s : List Char) : Bool :=
  s = [] || s = ['+'] || s = ['-']

/-- The exponent is well formed: marker `e` or `E`, optional sign, at least one digit. -/
def ExpLiteral.wf (e : ExpLiteral) : Bool :=
  (e.marker = 'e' || e.marker = 'E') && isSignText e.sign &&
    e.digits ≠ [] && e.digits.all isdigit

/-- The literal is well formed: only digits in the digit parts, at least one digit in the
mantissa, and a well-formed exponent. -/
def FloatLiteral.wf (l : FloatLiteral) : Bool :=
  isSignText l.sign && l.intPart.all isdigit &&
    (match l.fracPart with
     | none => decide (l.intPart ≠ [])
     | some fd => fd.all isdigit && (decide (l.intPart ≠ []) || decide (fd ≠ []))) &&
    (match l.expPart with
     | none => true
     | some e => e.wf)

/-- The characters of an exponent. -/
def ExpLiteral.text (e : ExpLiteral) : List Char :=
  e.marker :: (e.sign ++ e.digits)

/-- The characters of the fraction: the point and the digits after it. -/
def fracText (f : Option (List Char)) : List Char :=
  match f with
  | none => []
  | some fd => '.' :: fd

/-- The characters of the optional exponent. -/
def expText (e : Option ExpLiteral) : List Char :=
  match e with
  | none => []
  | some e => e.text

/-- The mantissa and exponent of a literal, without its sign. -/
def FloatLiteral.body (l : FloatLiteral) : List Char :=
  l.intPart ++ (fracText l.fracPart ++ expText l.expPart)

/-- The characters of a literal. -/
def FloatLiteral.text (l : FloatLiteral) : List Char :=
  l.sign ++ l.body

/-- The newline that ends a line of the device. -/
def newline : Char := Char.ofNat 10

/-- The next character, when there is one, is `;` or a newline. -/
def StopHead (X : List Char) : Prop :=
  ∀ c r, X = c :: r → c.toNat = 59 ∨ c.toNat = 10

/-- The value list `v1;...;vk` of a record. -/
def valueList : List FloatLiteral → List Char
  | [] => []
  | [v] => v.text
  | v :: w :: vs => v.text ++ ';' :: valueList (w :: vs)

/-- The record `T:v1;...;vk`, followed by `tail`. -/
def recordText (T : List Char) (vs : List FloatLiteral) (tail : List Char) : List Char :=
  T ++ ':' :: (valueList vs ++ tail)

/-- A timestamp token that is an integer for `strtoll`: optional white space, an optional
sign, and then digits only, at least one. -/
def isIntToken (tok : List Char) : Bool :=
  let sg := takeSign (tok.dropWhile isspace)
  decide (sg.2.2 ≠ []) && sg.2.2.all isdigit

/-- The token before the first `:` of a record (the whole record when it has no `:`). -/
def timestampToken (data : List Char) : List Char :=
  data.takeWhile (fun c => c ≠ ':')

/-- What follows the first `:` of a record. -/
def afterColon (data : List Char) : List Char :=
  (data.dropWhile (fun c => c ≠ ':')).drop 1

/-- The three malformed shapes: no `:` at all; a token before the first `:` that is not an
integer; nothing but white space after the first `:`. -/
def isMalformed (data : List Char) : Bool :=
  !(data.contains ':') || !(isIntToken (timestampToken data)) ||
    (afterColon data).all isspace

/-- A run of successful appends: each sample is committed in turn. -/
def appendAll {F : Type} (max_sample_count : Nat) (st : PlotState F)
    (samples : List (Nat × List F)) : PlotState F :=
  samples.foldl (fun s x => commitSample max_sample_count s x.1 x.2) st

/-- The abscissa of an in-window sample when the division is defined. -/
def xOf (view_width : Int) (now t display_period : Nat) : Int :=
  (xCoord view_width now t display_period).getD 0

/-- The order in which a pass over a buffer of `max_sample_count` slots walks them, as
the specification words it: from the write cursor on, modulo the capacity. -/
def walkSlots (max_sample_count sample_cursor : Nat) : List Nat :=
  (List.range max_sample_count).map (fun i => (sample_cursor + i) % max_sample_count)

/-- The View Window of the specification for the duration `display_period`: the slots, in
walk order, whose sample satisfies `now - timestamp <= display_period` in 64-bit unsigned
arithmetic, `now` being the timestamp of the latest slot. This is the list that the
render loop is compared with; the loop itself is `renderLoop`. -/
def specWindow {F : Type} (max_sample_count : Nat) (st : PlotState F)
    (display_period : Nat) : List Nat :=
  (walkSlots max_sample_count st.sample_cursor).filter
    (fun si => decide (sub64 (nowOf max_sample_count st) (st.sample_timestamp_buffer si) ≤
      display_period))

/-- The samples of the specification's window for channel `c` in walk order, each as its
abscissa, its timestamp and its value. -/
def windowSamples {F : Type} (max_sample_count : Nat) (st : PlotState F) (c : Nat)
    (view_width : Int) (display_period : Nat) : List (Int × Nat × F) :=
  (specWindow max_sample_count st display_period).map
    (fun si => (xOf view_width (nowOf max_sample_count st)
        (st.sample_timestamp_buffer si) display_period,
      st.sample_timestamp_buffer si,
      st.sample_value_buffer (c * max_sample_count + si)))

/-- The value of the last sample, in walk order, that crosses the pointer column `p`: the
sample walked just before it in the window is strictly left of `p` (`lx0` stands for the
abscissa before the first sample, and the comparison is the `float` one of the code), and
the sample itself is at or right of `p` or carries the timestamp `now`. `zero` when no
sample does. -/
def crossingFrom {F : Type} (p : Int) (now : Nat) (lx0 : Int) (zero : F)
    (samples : List (Int × Nat × F)) : F :=
  match ((List.zip (lx0 :: samples.map (fun s => floatOfInt s.1)) samples).filter
      (fun q => decide (q.1 < floatOfInt p) &&
        (decide (q.2.1 ≥ p) || decide (q.2.2.1 = now)))).getLast? with
  | some q => q.2.2.2
  | none => zero

/-- The crossing value of a channel pass: the abscissa before the first sample is `0`. -/
def crossingValue {F : Type} (p : Int) (now : Nat) (zero : F)
    (samples : List (Int × Nat × F)) : F :=
  crossingFrom p now 0 zero samples

/-- The highlighted value as the specification words it: the value of the last sample, in
walk order, whose abscissa is at or left of the pointer column `p`; `zero` when there is
none. -/
def lastAtOrLeft {F : Type} (p : Int) (zero : F) (samples : List (Int × Nat × F)) : F :=
  match (samples.filter (fun s => decide (s.1 ≤ p))).getLast? with
  | some s => s.2.2
  | none => zero

/-- The three records of the round-trip scenario. -/
def roundTripRecords : List (List Char) :=
  ["1000:1.0;2.0".toList, "2000:1.5;2.5".toList, "3000:2.0;3.0".toList]

/-- The round-trip scenario: a buffer of capacity `3` with `max_channels = 2`, whatever
its first contents, after one running frame that reads the three records. -/
def roundTrip {F : Type} (conv : List Char → F) (vb : Nat → F) (tb : Nat → Nat) :
    PlotState F :=
  ingestFrame conv 3 2 false 10 ⟨vb, tb, 0⟩ roundTripRecords

/-- A buffer of capacity `3` before any append, filled with zeros, the values being kept
as the text that `strtof` read. -/
def emptyState : PlotState (List Char) :=
  ⟨fun _ => [], fun _ => 0, 0⟩

/-- A buffer of numbers before any append, filled with zeros. -/
def zeroState : PlotState Nat :=
  ⟨fun _ => 0, fun _ => 0, 0⟩

/-! # Theorems -/

/-! ## Characters and scanning -/

theorem char_eq_of_toNat {c d : Char} (h : c.toNat = d.toNat) : c = d := by
  apply Char.ext
  apply UInt32.ext
  exact h

theorem isdigit_not_isspace {c : Char} (h : isdigit c = true) : isspace c = false := by
  simp only [isdigit, isspace, Bool.and_eq_true, decide_eq_true_eq, Bool.or_eq_false_iff,
    Bool.and_eq_false_iff, decide_eq_false_iff_not] at *
  omega

theorem isdigit_bounds {c : Char} (h : isdigit c = true) : 48 ≤ c.toNat ∧ c.toNat ≤ 57 := by
  simpa [isdigit] using h

theorem tolower_of_lt {c : Char} (h : c.toNat < 65) : tolower c = c := by
  unfold tolower
  rw [if_neg]
  omega

theorem scan_append_stop (p : Char → Bool) (l : List Char) (c : Char) (r : List Char)
    (hc : p c = false) :
    (l ++ c :: r).takeWhile p = l.takeWhile p ∧
      (l ++ c :: r).dropWhile p = l.dropWhile p ++ c :: r := by
  induction l with
  | nil => simp [List.takeWhile_cons, List.dropWhile_cons, hc]
  | cons a l ih =>
    by_cases ha : p a = true
    · simp [List.takeWhile_cons, List.dropWhile_cons, ha, ih]
    · simp [List.takeWhile_cons, List.dropWhile_cons, ha]

theorem takeWhile_all (p : Char → Bool) (l : List Char) (h : l.all p = true) :
    l.takeWhile p = l ∧ l.dropWhile p = [] := by
  induction l with
  | nil => simp
  | cons a l ih =>
    simp only [List.all_cons, Bool.and_eq_true] at h
    simp [List.takeWhile_cons, List.dropWhile_cons, h.1, ih h.2]

theorem scan_all_append_stop (p : Char → Bool) (l : List Char) (c : Char) (r : List Char)
    (hl : l.all p = true) (hc : p c = false) :
    (l ++ c :: r).takeWhile p = l ∧ (l ++ c :: r).dropWhile p = c :: r := by
  have h1 := scan_append_stop p l c r hc
  have h2 := takeWhile_all p l hl
  rw [h1.1, h1.2, h2.1, h2.2]
  simp

theorem takeSign_cases (s : List Char) :
    (takeSign s = ([], false, s) ∧ ∀ c r, s = c :: r → c.toNat ≠ 45 ∧ c.toNat ≠ 43) ∨
      ∃ c r, s = c :: r ∧ (c.toNat = 45 ∨ c.toNat = 43) ∧
        takeSign s = ([c], decide (c.toNat = 45), r) := by
  cases s with
  | nil => left; simp [takeSign]
  | cons c r =>
    by_cases h1 : c.toNat = 45
    · right; exact ⟨c, r, rfl, Or.inl h1, by simp [takeSign, h1]⟩
    · by_cases h2 : c.toNat = 43
      · right; exact ⟨c, r, rfl, Or.inr h2, by simp [takeSign, h1, h2]⟩
      · left
        refine ⟨by simp [takeSign, h1, h2], ?_⟩
        intro c1 r1 h
        cases h
        exact ⟨h1, h2⟩

theorem takeSign_of_digit (c : Char) (r : List Char) (h : isdigit c = true) :
    takeSign (c :: r) = ([], false, c :: r) := by
  have := isdigit_bounds h
  have h1 : c.toNat ≠ 45 := by omega
  have h2 : c.toNat ≠ 43 := by omega
  simp [takeSign, h1, h2]

/-- Whatever `strtoll` converts is an integer token without a `:`. -/
theorem strtoll_converted (data : List Char)
    (h : (strtoll data).2.length ≠ data.length) :
    ∃ pre, data = pre ++ (strtoll data).2 ∧ isIntToken pre = true ∧
      ∀ c ∈ pre, c.toNat ≠ 58 := by
  have hws := List.takeWhile_append_dropWhile isspace data
  have hds : ∀ b : List Char, b.takeWhile isdigit ++ b.dropWhile isdigit = b :=
    fun b => List.takeWhile_append_dropWhile isdigit b
  have hwsp : ∀ c ∈ data.takeWhile isspace, isspace c = true :=
    fun c hc => List.mem_takeWhile_imp hc
  have hdsp : ∀ (b : List Char), ∀ c ∈ b.takeWhile isdigit, isdigit c = true :=
    fun b c hc => List.mem_takeWhile_imp hc
  unfold strtoll at h ⊢
  simp only at h ⊢
  split at h
  · exact absurd rfl h
  · rename_i hne
    rw [if_neg hne]
    simp only
    obtain ⟨ds0, dsr, hdseq⟩ := List.exists_cons_of_ne_nil hne
    have hd0 : isdigit ds0 = true := hdsp _ ds0 (by rw [hdseq]; simp)
    rcases takeSign_cases (data.dropWhile isspace) with ⟨hs, _⟩ | ⟨c, r, hs, hc, hts⟩
    · rw [hs] at hne hdseq ⊢
      simp only at hne hdseq ⊢
      refine ⟨data.takeWhile isspace ++ (data.dropWhile isspace).takeWhile isdigit, ?_, ?_, ?_⟩
      · rw [List.append_assoc, hds, hws]
      · unfold isIntToken
        rw [hdseq]
        have := scan_all_append_stop isspace (data.takeWhile isspace) ds0 dsr
          (by simp [List.all_eq_true]) (isdigit_not_isspace hd0)
        rw [this.2, takeSign_of_digit _ _ hd0]
        simp only [ne_eq, reduceCtorEq, not_false_eq_true, decide_True, Bool.true_and]
        rw [← hdseq]
        simp [List.all_eq_true]
      · intro x hx
        rcases List.mem_append.1 hx with hx | hx
        · have := hwsp x hx
          simp only [isspace, Bool.or_eq_true, decide_eq_true_eq, Bool.and_eq_true] at this
          omega
        · have := isdigit_bounds (hdsp _ x hx)
          omega
    · rw [hts] at hne hdseq ⊢
      simp only at hne hdseq ⊢
      refine ⟨data.takeWhile isspace ++ c :: r.takeWhile isdigit, ?_, ?_, ?_⟩
      · rw [List.append_assoc, List.cons_append, hds, ← hs, hws]
      · unfold isIntToken
        have hcs : isspace c = false := by
          simp only [isspace, Bool.or_eq_false_iff, decide_eq_false_iff_not,
            Bool.and_eq_false_iff]
          omega
        have := scan_all_append_stop isspace (data.takeWhile isspace) c (r.takeWhile isdigit)
          (by simp [List.all_eq_true]) hcs
        rw [this.2]
        have hts2 : takeSign (c :: r.takeWhile isdigit) =
            ([c], decide (c.toNat = 45), r.takeWhile isdigit) := by
          rcases hc with hc | hc
          · simp [takeSign, hc]
          · simp [takeSign, hc]
        rw [hts2]
        simp only [ne_eq, hne, not_false_eq_true, decide_True, Bool.true_and]
        simp [List.all_eq_true]
      · intro x hx
        rcases List.mem_append.1 hx with hx | hx
        · have := hwsp x hx
          simp only [isspace, Bool.or_eq_true, decide_eq_true_eq, Bool.and_eq_true] at this
          omega
        · rcases List.mem_cons.1 hx with hx | hx
          · subst hx; omega
          · have := isdigit_bounds (hdsp _ x hx)
            omega

theorem strtof_of_all_space (rest : List Char) (h : rest.all isspace = true) :
    strtof rest = ([], rest) := by
  have h1 := (takeWhile_all isspace rest h).2
  unfold strtof
  simp only [h1]
  rfl

theorem parseValues_of_all_space {F : Type} (conv : List Char → F) (n : Nat)
    (rest : List Char) (h : rest.all isspace = true) : parseValues conv n rest = [] := by
  cases n with
  | zero => rfl
  | succ n =>
    unfold parseValues
    simp [strtof_of_all_space rest h]

theorem contains_colon_append (pre rest : List Char) :
    (pre ++ ':' :: rest).contains ':' = true := by
  simp

theorem timestampToken_append (pre rest : List Char) (h : ∀ c ∈ pre, c.toNat ≠ 58) :
    timestampToken (pre ++ ':' :: rest) = pre ∧ afterColon (pre ++ ':' :: rest) = rest := by
  have hall : pre.all (fun c => decide (c ≠ ':')) = true := by
    simp only [List.all_eq_true, decide_eq_true_eq]
    intro c hc hcc
    subst hcc
    exact h _ hc rfl
  have := scan_all_append_stop (fun c => decide (c ≠ ':')) pre ':' rest hall (by simp)
  unfold timestampToken afterColon
  rw [this.1, this.2]
  simp

/-- Every malformed record gives the output count `0`. -/
theorem parse_malformed_count {F : Type} (conv : List Char → F) (data : List Char)
    (max_channels : Nat) (h : isMalformed data = true) :
    (parse_channel_data conv data max_channels).output_count = 0 := by
  unfold ParseResult.output_count parse_channel_data
  simp only
  split
  · rfl
  · rename_i hlen
    obtain ⟨pre, hpre, htok, hcolon⟩ := strtoll_converted data hlen
    split
    · rename_i c rest hnext
      split
      · rename_i hc
        have hcc : c = ':' := char_eq_of_toNat (by rw [hc]; rfl)
        subst hcc
        rw [hnext] at hpre
        have hsplit := timestampToken_append pre rest hcolon
        rw [← hpre] at hsplit
        have hcont : data.contains ':' = true := by
          rw [hpre]; exact contains_colon_append pre rest
        unfold isMalformed at h
        rw [hcont, hsplit.1, hsplit.2, htok] at h
        simp only [Bool.not_true, Bool.false_or] at h
        rw [parseValues_of_all_space conv max_channels rest h]
        rfl
      · rfl
    · rfl

/-! ## `strtof` on a decimal literal -/

theorem scan_all_append_head (p : Char → Bool) (l Z : List Char) (hl : l.all p = true)
    (hZ : ∀ c r, Z = c :: r → p c = false) :
    (l ++ Z).takeWhile p = l ∧ (l ++ Z).dropWhile p = Z := by
  cases Z with
  | nil => simpa using takeWhile_all p l hl
  | cons c r => exact scan_all_append_stop p l c r hl (hZ c r rfl)

theorem isSignText_cases {sg : List Char} (h : isSignText sg = true) :
    sg = [] ∨ sg = ['+'] ∨ sg = ['-'] := by
  simpa [isSignText, or_assoc] using h

theorem takeSign_signText (sg body : List Char) (hsg : isSignText sg = true)
    (hb : ∀ c r, body = c :: r → c.toNat ≠ 45 ∧ c.toNat ≠ 43) :
    (takeSign (sg ++ body)).1 = sg ∧ (takeSign (sg ++ body)).2.2 = body := by
  rcases isSignText_cases hsg with h | h | h
  · subst h
    cases body with
    | nil => simp [takeSign]
    | cons c r =>
      have := hb c r rfl
      simp [takeSign, this.1, this.2]
  · subst h
    simp [takeSign]
  · subst h
    simp [takeSign]

theorem exponentPart_expText (ep : Option ExpLiteral)
    (hwf : ∀ e, ep = some e → e.wf = true) (X : List Char) (hX : StopHead X) :
    exponentPart 'e' (expText ep ++ X) = expText ep := by
  cases ep with
  | none =>
    simp only [expText, List.nil_append]
    cases X with
    | nil => rfl
    | cons c r =>
      have hc := hX c r rfl
      have hlow : tolower c = c := tolower_of_lt (by omega)
      have hne : c ≠ 'e' := by
        intro h
        subst h
        revert hc
        decide
      simp [exponentPart, hlow, hne]
  | some e =>
    have hw := hwf e rfl
    simp only [ExpLiteral.wf, Bool.and_eq_true, Bool.or_eq_true, decide_eq_true_eq] at hw
    obtain ⟨⟨⟨hm, hs⟩, hd⟩, hall⟩ := hw
    obtain ⟨d0, dr, hdeq⟩ := List.exists_cons_of_ne_nil hd
    have hd0 : isdigit d0 = true := by
      rw [hdeq] at hall
      simp only [List.all_cons, Bool.and_eq_true] at hall
      exact hall.1
    have hd0b := isdigit_bounds hd0
    have hts := takeSign_signText e.sign (e.digits ++ X) hs (by
      intro c r hcr
      rw [hdeq] at hcr
      simp only [List.cons_append, List.cons.injEq] at hcr
      rw [← hcr.1]
      omega)
    have hscan := scan_all_append_head isdigit e.digits X hall (by
      intro c r hcr
      have := hX c r hcr
      simp only [isdigit, Bool.and_eq_false_iff, decide_eq_false_iff_not]
      omega)
    have hlow : tolower e.marker = 'e' := by
      rcases hm with h | h <;> rw [h] <;> decide
    simp only [expText, ExpLiteral.text, List.cons_append, List.append_assoc, exponentPart,
      hlow, if_true, hts.1, hts.2, hscan.1, hd, if_false]

theorem expText_head (ep : Option ExpLiteral) (hwf : ∀ e, ep = some e → e.wf = true)
    (X : List Char) (hX : StopHead X) :
    ∀ c r, expText ep ++ X = c :: r →
      c.toNat = 101 ∨ c.toNat = 69 ∨ c.toNat = 59 ∨ c.toNat = 10 := by
  intro c r h
  cases ep with
  | none =>
    simp only [expText, List.nil_append] at h
    rcases hX c r h with h1 | h1 <;> omega
  | some e =>
    have hw := hwf e rfl
    simp only [ExpLiteral.wf, Bool.and_eq_true, Bool.or_eq_true, decide_eq_true_eq] at hw
    simp only [expText, ExpLiteral.text, List.cons_append, List.cons.injEq] at h
    rw [← h.1]
    rcases hw.1.1.1 with h1 | h1 <;> rw [h1] <;> decide

theorem FloatLiteral.wf_parts {l : FloatLiteral} (h : l.wf = true) :
    isSignText l.sign = true ∧ l.intPart.all isdigit = true ∧
      (∀ fd, l.fracPart = some fd → fd.all isdigit = true) ∧
      (l.fracPart = none → l.intPart ≠ []) ∧
      (∀ fd, l.fracPart = some fd → l.intPart ≠ [] ∨ fd ≠ []) ∧
      (∀ e, l.expPart = some e → e.wf = true) := by
  unfold FloatLiteral.wf at h
  simp only [Bool.and_eq_true] at h
  obtain ⟨⟨⟨h1, h2⟩, h3⟩, h4⟩ := h
  refine ⟨h1, h2, ?_, ?_, ?_, ?_⟩
  · intro fd hfd
    rw [hfd] at h3
    simp only [Bool.and_eq_true] at h3
    exact h3.1
  · intro hfd
    rw [hfd] at h3
    simpa using h3
  · intro fd hfd
    rw [hfd] at h3
    simp only [Bool.and_eq_true, Bool.or_eq_true, decide_eq_true_eq] at h3
    exact h3.2
  · intro e he
    rw [he] at h4
    exact h4

theorem all_digit_head {l : List Char} (h : l.all isdigit = true) :
    ∀ c r, l = c :: r → 48 ≤ c.toNat ∧ c.toNat ≤ 57 := by
  intro c r hcr
  subst hcr
  simp only [List.all_cons, Bool.and_eq_true] at h
  exact isdigit_bounds h.1

/-- The first character after the digits before the point. -/
theorem FloatLiteral.rest_head {l : FloatLiteral} (h : l.wf = true) (X : List Char)
    (hX : StopHead X) :
    ∀ c r, fracText l.fracPart ++ (expText l.expPart ++ X) = c :: r →
      c.toNat = 46 ∨ c.toNat = 101 ∨ c.toNat = 69 ∨ c.toNat = 59 ∨ c.toNat = 10 := by
  intro c r hcr
  obtain ⟨_, _, _, _, _, h6⟩ := FloatLiteral.wf_parts h
  cases hf : l.fracPart with
  | none =>
    rw [hf] at hcr
    simp only [fracText, List.nil_append] at hcr
    have := expText_head l.expPart h6 X hX c r hcr
    omega
  | some fd =>
    rw [hf] at hcr
    simp only [fracText, List.cons_append, List.cons.injEq] at hcr
    rw [← hcr.1]
    left
    decide

/-- The first character of a literal without its sign is a digit or the point, and the
second of body and following text is never `x`. -/
theorem FloatLiteral.body_head {l : FloatLiteral} (h : l.wf = true) (X : List Char) :
    ∃ c r, l.body ++ X = c :: r ∧ ((48 ≤ c.toNat ∧ c.toNat ≤ 57) ∨ c.toNat = 46) := by
  obtain ⟨_, h2, _, h4, h5, _⟩ := FloatLiteral.wf_parts h
  unfold FloatLiteral.body
  cases hi : l.intPart with
  | cons c r =>
    refine ⟨c, r ++ (fracText l.fracPart ++ expText l.expPart) ++ X, by simp, Or.inl ?_⟩
    exact all_digit_head h2 c r hi
  | nil =>
    cases hf : l.fracPart with
    | none => exact absurd hi (h4 hf)
    | some fd =>
      refine ⟨'.', fd ++ expText l.expPart ++ X, by simp [fracText], Or.inr ?_⟩
      decide

theorem numberSubject_literal {l : FloatLiteral} (h : l.wf = true) (X : List Char)
    (hX : StopHead X) : numberSubject isdigit 'e' (l.body ++ X) = l.body := by
  obtain ⟨_, h2, h3, h4, h5, h6⟩ := FloatLiteral.wf_parts h
  have hrest := FloatLiteral.rest_head h X hX
  have hexp := exponentPart_expText l.expPart h6 X hX
  have hehead := expText_head l.expPart h6 X hX
  have hscan := scan_all_append_head isdigit l.intPart
    (fracText l.fracPart ++ (expText l.expPart ++ X)) h2 (by
      intro c r hcr
      have := hrest c r hcr
      simp only [isdigit, Bool.and_eq_false_iff, decide_eq_false_iff_not]
      omega)
  unfold numberSubject FloatLiteral.body
  simp only [List.append_assoc, hscan.1, hscan.2]
  cases hf : l.fracPart with
  | none =>
    have hne := h4 hf
    simp only [fracText, List.nil_append, List.append_nil]
    cases hZ : expText l.expPart ++ X with
    | nil =>
      have : expText l.expPart = [] := (List.append_eq_nil.1 hZ).1
      simp [hne, this, exponentPart]
    | cons c r =>
      have hc := hehead c r hZ
      have hc46 : c.toNat ≠ 46 := by omega
      simp only [hc46, if_false, List.length_nil, List.drop_zero, hne, false_and,
        List.append_nil]
      rw [← hZ, hexp]
      simp
  | some fd =>
    have hfd := h3 fd hf
    have hne := h5 fd hf
    have hscan2 := scan_all_append_head isdigit fd (expText l.expPart ++ X) hfd (by
      intro c r hcr
      have := hehead c r hcr
      simp only [isdigit, Bool.and_eq_false_iff, decide_eq_false_iff_not]
      omega)
    have h46 : ('.' : Char).toNat = 46 := by decide
    simp only [fracText, List.cons_append, h46, if_true, hscan2.1, List.length_cons,
      List.drop_succ_cons, List.drop_left, hexp]
    have hguard : ¬ (l.intPart = [] ∧ fd.length + 1 ≤ 1) := by
      rintro ⟨ha, hb⟩
      rcases hne with h | h
      · exact h ha
      · apply h
        apply List.eq_nil_of_length_eq_zero
        omega
    rw [if_neg hguard]

theorem specialSubject_of_low (c : Char) (r : List Char) (h : c.toNat < 65) :
    specialSubject (c :: r) = [] := by
  have hlow := tolower_of_lt h
  have h1 : c ≠ 'i' := by
    intro hc; subst hc; revert h; decide
  have h2 : c ≠ 'n' := by
    intro hc; subst hc; revert h; decide
  simp [specialSubject, startsWithNoCase, hlow, h1, h2]

theorem tolower_ne_x {c : Char}
    (h : c.toNat < 65 ∨ c.toNat = 101 ∨ c.toNat = 69) : tolower c ≠ 'x' := by
  rcases h with h | h | h
  · rw [tolower_of_lt h]
    intro hc; subst hc; revert h; decide
  · have : c = 'e' := char_eq_of_toNat (by rw [h]; rfl)
    subst this; decide
  · have : c = 'E' := char_eq_of_toNat (by rw [h]; rfl)
    subst this; decide

theorem hexSubject_of_second (c0 : Char) (t : List Char)
    (h : ∀ c1 r, t = c1 :: r → tolower c1 ≠ 'x') : hexSubject (c0 :: t) = [] := by
  cases t with
  | nil => rfl
  | cons c1 r =>
    have := h c1 r rfl
    simp [hexSubject, this]

theorem hexSubject_literal {l : FloatLiteral} (h : l.wf = true) (X : List Char)
    (hX : StopHead X) : hexSubject (l.body ++ X) = [] := by
  obtain ⟨_, h2, h3, h4, h5, _⟩ := FloatLiteral.wf_parts h
  have hrest := FloatLiteral.rest_head h X hX
  unfold FloatLiteral.body
  cases hi : l.intPart with
  | cons c0 ip =>
    simp only [List.cons_append, List.append_assoc]
    apply hexSubject_of_second
    intro c1 r hcr
    apply tolower_ne_x
    cases ip with
    | nil =>
      simp only [List.nil_append] at hcr
      have := hrest c1 r hcr
      omega
    | cons d ip1 =>
      simp only [List.cons_append, List.cons.injEq] at hcr
      rw [hi] at h2
      simp only [List.all_cons, Bool.and_eq_true] at h2
      have := isdigit_bounds h2.2.1
      rw [← hcr.1]
      omega
  | nil =>
    cases hf : l.fracPart with
    | none => exact absurd hi (h4 hf)
    | some fd =>
      have hfd := h3 fd hf
      simp only [fracText, List.nil_append, List.cons_append, List.append_assoc]
      apply hexSubject_of_second
      intro c1 r hcr
      apply tolower_ne_x
      cases fd with
      | nil =>
        rcases h5 [] hf with h | h
        · exact absurd hi h
        · exact absurd rfl h
      | cons d fd1 =>
        simp only [List.cons_append, List.cons.injEq] at hcr
        simp only [List.all_cons, Bool.and_eq_true] at hfd
        have := isdigit_bounds hfd.1
        rw [← hcr.1]
        omega

/-- On a well-formed literal followed by nothing, a `;` or a newline, `strtof` reads
exactly the literal. -/
theorem strtof_literal {l : FloatLiteral} (h : l.wf = true) (X : List Char)
    (hX : StopHead X) : strtof (l.text ++ X) = (l.text, X) := by
  obtain ⟨h1, _, _, _, _, _⟩ := FloatLiteral.wf_parts h
  obtain ⟨c, r, hcr, hc⟩ := FloatLiteral.body_head h X
  have hts := takeSign_signText l.sign (l.body ++ X) h1 (by
    intro c1 r1 h1
    rw [hcr] at h1
    cases h1
    omega)
  have hdw : (l.text ++ X).dropWhile isspace = l.sign ++ (l.body ++ X) := by
    unfold FloatLiteral.text
    rw [List.append_assoc]
    rcases isSignText_cases h1 with hs | hs | hs
    · rw [hs, List.nil_append, hcr, List.dropWhile_cons]
      have : isspace c = false := by
        simp only [isspace, Bool.or_eq_false_iff, decide_eq_false_iff_not,
          Bool.and_eq_false_iff]
        omega
      simp [this]
    · rw [hs]; rfl
    · rw [hs]; rfl
  have hsp : specialSubject (l.body ++ X) = [] := by
    rw [hcr]
    exact specialSubject_of_low c r (by omega)
  have hbody : l.body ≠ [] := by
    intro hb
    obtain ⟨c, r, hcr, hc⟩ := FloatLiteral.body_head h []
    rw [hb] at hcr
    cases hcr
  unfold strtof
  simp only [hdw, hts.1, hts.2, hsp, hexSubject_literal h X hX, numberSubject_literal h X hX,
    ne_eq, not_true_eq_false, if_false, hbody, List.drop_left]
  rfl

theorem text_ne_nil {l : FloatLiteral} (h : l.wf = true) : l.text ≠ [] := by
  obtain ⟨c, r, hcr, _⟩ := FloatLiteral.body_head h []
  intro ht
  unfold FloatLiteral.text at ht
  rw [(List.append_eq_nil.1 ht).2] at hcr
  cases hcr

theorem parseValues_literal_cons {F : Type} (conv : List Char → F) (n : Nat)
    {l : FloatLiteral} (h : l.wf = true) (c : Char) (rest : List Char)
    (hc : c.toNat = 59 ∨ c.toNat = 10) :
    parseValues conv (n + 1) (l.text ++ c :: rest) =
      conv l.text :: (if c.toNat = 59 then parseValues conv n rest else []) := by
  have hne := text_ne_nil h
  have hlen : ¬ (c :: rest).length = (l.text ++ c :: rest).length := by
    rw [List.length_append]
    have := List.length_pos.2 hne
    omega
  have hX : StopHead (c :: rest) := by
    intro c1 r1 h1
    cases h1
    exact hc
  rw [parseValues]
  simp only [strtof_literal h _ hX, hlen, if_false]

theorem parseValues_literal_nil {F : Type} (conv : List Char → F) (n : Nat)
    {l : FloatLiteral} (h : l.wf = true) :
    parseValues conv (n + 1) l.text = [conv l.text] := by
  have hne := text_ne_nil h
  have hlen : ¬ ([] : List Char).length = l.text.length := by
    have := List.length_pos.2 hne
    simp only [List.length_nil]
    omega
  have hX : StopHead [] := by
    intro c1 r1 h1
    cases h1
  have hs := strtof_literal h [] hX
  rw [List.append_nil] at hs
  rw [parseValues]
  simp only [hs, hlen, if_false]

/-- The value loop on `v1;...;vk`: the first `n` literals, converted, in order. -/
theorem parseValues_valueList {F : Type} (conv : List Char → F) (vs : List FloatLiteral)
    (hwf : ∀ v ∈ vs, v.wf = true) (tail : List Char) (htail : tail = [] ∨ tail = [newline])
    (n : Nat) :
    parseValues conv n (valueList vs ++ tail) = (vs.take n).map (fun v => conv v.text) := by
  induction vs generalizing n with
  | nil =>
    simp only [valueList, List.nil_append, List.take_nil, List.map_nil]
    apply parseValues_of_all_space
    rcases htail with h | h <;> rw [h] <;> decide
  | cons v vs ih =>
    cases n with
    | zero => rfl
    | succ n =>
      have hv := hwf v (List.mem_cons_self _ _)
      cases vs with
      | nil =>
        simp only [valueList, List.take_succ_cons, List.take_nil, List.map_cons, List.map_nil]
        rcases htail with h | h
        · rw [h, List.append_nil]
          exact parseValues_literal_nil conv n hv
        · rw [h, parseValues_literal_cons conv n hv newline [] (Or.inr (by decide))]
          have : ¬ newline.toNat = 59 := by decide
          rw [if_neg this]
      | cons w vs =>
        have hih := ih (fun u hu => hwf u (List.mem_cons_of_mem _ hu)) n
        simp only [valueList, List.take_succ_cons, List.map_cons, List.append_assoc,
          List.cons_append]
        have h59 : (';' : Char).toNat = 59 := by decide
        rw [parseValues_literal_cons conv n hv ';' _ (Or.inl h59), if_pos h59, hih]

theorem strtoll_digits (T rest : List Char) (hT : T ≠ []) (hall : T.all isdigit = true) :
    strtoll (T ++ ':' :: rest) =
      (max LLONG_MIN (min LLONG_MAX (digitsValue T : Int)), ':' :: rest) := by
  obtain ⟨d, ds, hd⟩ := List.exists_cons_of_ne_nil hT
  have hdig : isdigit d = true := by
    rw [hd] at hall
    simp only [List.all_cons, Bool.and_eq_true] at hall
    exact hall.1
  have hdw : (T ++ ':' :: rest).dropWhile isspace = T ++ ':' :: rest := by
    rw [hd, List.cons_append, List.dropWhile_cons]
    simp [isdigit_not_isspace hdig]
  have hsg : takeSign (T ++ ':' :: rest) = ([], false, T ++ ':' :: rest) := by
    rw [hd, List.cons_append]
    exact takeSign_of_digit _ _ hdig
  have hscan := scan_all_append_stop isdigit T ':' rest hall (by decide)
  unfold strtoll
  simp only [hdw, hsg, hscan.1, hscan.2, hT, if_false, Bool.false_eq_true]

/-- C1 (amended). For a record `T:v1;...;vk`, alone or followed by a newline, with `T` a
run of decimal digits of value below `2 ^ 63` and each `vi` a decimal floating-point
literal, `parse_channel_data` sets the timestamp to the value of `T` and the output count
to `min k max_channels`, and the output holds the conversions of the first
`min k max_channels` literals, in record order. -/
theorem parse_wellformed_record {F : Type} (conv : List Char → F) (max_channels : Nat)
    (T : List Char) (vs : List FloatLiteral) (tail : List Char)
    (hT : T ≠ []) (hdigits : T.all isdigit = true) (hrange : digitsValue T < 2 ^ 63)
    (hvs : ∀ v ∈ vs, v.wf = true) (htail : tail = [] ∨ tail = [newline]) :
    (parse_channel_data conv (recordText T vs tail) max_channels).timestamp = digitsValue T ∧
    (parse_channel_data conv (recordText T vs tail) max_channels).output_count =
      min vs.length max_channels ∧
    (parse_channel_data conv (recordText T vs tail) max_channels).output =
      (vs.take max_channels).map (fun v => conv v.text) ∧
    ∀ i, i < min vs.length max_channels →
      (parse_channel_data conv (recordText T vs tail) max_channels).output[i]? =
        (vs[i]?).map (fun v => conv v.text) := by
  have hst := strtoll_digits T (valueList vs ++ tail) hT hdigits
  have hlen : ¬ (':' :: (valueList vs ++ tail)).length =
      (T ++ ':' :: (valueList vs ++ tail)).length := by
    rw [List.length_append]
    have := List.length_pos.2 hT
    omega
  have hval : max LLONG_MIN (min LLONG_MAX (digitsValue T : Int)) = (digitsValue T : Int) := by
    unfold LLONG_MIN LLONG_MAX
    have h1 : (digitsValue T : Int) < 2 ^ 63 := by exact_mod_cast hrange
    have h0 : (0 : Int) ≤ (digitsValue T : Int) := Int.ofNat_nonneg _
    rw [min_eq_right (by omega), max_eq_right (by omega)]
  have hts : ((digitsValue T : Int) % 2 ^ 64).toNat = digitsValue T := by
    have h1 : (digitsValue T : Int) < 2 ^ 64 := by
      have : (digitsValue T : Int) < 2 ^ 63 := by exact_mod_cast hrange
      omega
    rw [Int.emod_eq_of_lt (Int.ofNat_nonneg _) h1]
    simp
  have h58 : (':' : Char).toNat = 58 := by decide
  have hp : parse_channel_data conv (recordText T vs tail) max_channels =
      ⟨digitsValue T, (vs.take max_channels).map (fun v => conv v.text)⟩ := by
    unfold parse_channel_data recordText
    simp only [hst, hlen, if_false, h58, if_true, hval, hts,
      parseValues_valueList conv vs hvs tail htail max_channels]
  rw [hp]
  refine ⟨rfl, ?_, rfl, ?_⟩
  · simp [ParseResult.output_count, Nat.min_comm]
  · intro i hi
    simp only [List.getElem?_map]
    rw [List.getElem?_take_of_lt (by omega)]

/-! ## The ring buffer -/

theorem storeChannels_other {F : Type} (N cur : Nat) (vs : List F) (c0 : Nat)
    (buf : Nat → F) (idx : Nat) (h : ∀ j, j < vs.length → idx ≠ (c0 + j) * N + cur) :
    storeChannels N cur c0 vs buf idx = buf idx := by
  induction vs generalizing c0 buf with
  | nil => rfl
  | cons v vs ih =>
    rw [storeChannels, ih]
    · have := h 0 (by simp)
      simp only [Nat.add_zero] at this
      rw [Function.update_noteq this]
    · intro j hj
      have := h (j + 1) (by simpa using hj)
      rw [show c0 + 1 + j = c0 + (j + 1) by omega]
      exact this

theorem storeChannels_hit {F : Type} (N cur : Nat) (hN : 0 < N) (vs : List F) (c0 : Nat)
    (buf : Nat → F) (j : Nat) (hj : j < vs.length) :
    storeChannels N cur c0 vs buf ((c0 + j) * N + cur) = vs[j] := by
  induction vs generalizing c0 buf j with
  | nil => simp at hj
  | cons v vs ih =>
    rw [storeChannels]
    cases j with
    | zero =>
      rw [storeChannels_other]
      · simp
      · intro j _
        have : (c0 + 0) * N < (c0 + 1 + j) * N :=
          Nat.mul_lt_mul_of_pos_right (by omega) hN
        omega
    | succ j =>
      have := ih (c0 + 1) (Function.update buf (c0 * N + cur) v) j (by simpa using hj)
      rw [show c0 + (j + 1) = c0 + 1 + j by omega, this]
      simp

theorem slot_index_ne (N c d slot cur : Nat) (hs : slot < N) (hc : cur < N)
    (hne : slot ≠ cur) : c * N + slot ≠ d * N + cur := by
  intro h
  have h1 : (c * N + slot) % N = slot := by
    rw [Nat.add_comm, Nat.add_mul_mod_self_right, Nat.mod_eq_of_lt hs]
  have h2 : (d * N + cur) % N = cur := by
    rw [Nat.add_comm, Nat.add_mul_mod_self_right, Nat.mod_eq_of_lt hc]
  rw [h, h2] at h1
  exact hne h1.symm

/-- A commit leaves every other slot as it was. -/
theorem sampleAt_commit_other {F : Type} (N maxch : Nat) (st : PlotState F) (t : Nat)
    (ch : List F) (slot : Nat) (hs : slot < N) (hc : st.sample_cursor < N)
    (hne : slot ≠ st.sample_cursor) :
    sampleAt N maxch (commitSample N st t ch) slot = sampleAt N maxch st slot := by
  unfold sampleAt commitSample
  simp only [Function.update_noteq hne]
  congr 1
  apply List.map_congr_left
  intro c _
  apply storeChannels_other
  intro j _
  exact slot_index_ne N c (0 + j) slot st.sample_cursor hs hc hne

/-- A commit of `max_channels` values puts the sample in the slot at the cursor. -/
theorem sampleAt_commit_cursor {F : Type} (N maxch : Nat) (hN : 0 < N) (st : PlotState F)
    (t : Nat) (ch : List F) (hch : ch.length = maxch) :
    sampleAt N maxch (commitSample N st t ch) st.sample_cursor = (t, ch) := by
  unfold sampleAt commitSample
  simp only [Function.update_same]
  congr 1
  apply List.ext_getElem
  · simp [hch]
  · intro i h1 h2
    simp only [List.getElem_map, List.getElem_range]
    have := storeChannels_hit N st.sample_cursor hN ch 0 st.sample_value_buffer i h2
    simpa using this

theorem appendAll_snoc {F : Type} (N : Nat) (st : PlotState F) (xs : List (Nat × List F))
    (x : Nat × List F) :
    appendAll N st (xs ++ [x]) = commitSample N (appendAll N st xs) x.1 x.2 := by
  simp [appendAll, List.foldl_append]

/-- After any run of appends from cursor `0`: the cursor is the number of appends modulo
the capacity, and each of the last `N` appends is in the slot of its number modulo `N`. -/
theorem appendAll_slots {F : Type} (N maxch : Nat) (hN : 0 < N) (st0 : PlotState F)
    (h0 : st0.sample_cursor = 0) (xs : List (Nat × List F))
    (hch : ∀ x ∈ xs, x.2.length = maxch) :
    (appendAll N st0 xs).sample_cursor = xs.length % N ∧
      ∀ k, k < xs.length → xs.length ≤ k + N →
        xs[k]? = some (sampleAt N maxch (appendAll N st0 xs) (k % N)) := by
  induction xs using List.reverseRecOn with
  | nil =>
    refine ⟨by simp [appendAll, h0], ?_⟩
    intro k hk
    simp at hk
  | append_singleton xs x ih =>
    obtain ⟨ihc, ihs⟩ := ih (fun y hy => hch y (List.mem_append_left _ hy))
    have hx : x.2.length = maxch := hch x (by simp)
    have hcur : (appendAll N st0 xs).sample_cursor < N := by
      rw [ihc]; exact Nat.mod_lt _ hN
    rw [appendAll_snoc]
    refine ⟨?_, ?_⟩
    · simp only [commitSample, ihc, List.length_append, List.length_singleton]
      rw [Nat.mod_add_mod]
    · intro k hk hkN
      simp only [List.length_append, List.length_singleton] at hk hkN
      by_cases hlast : k = xs.length
      · subst hlast
        rw [← ihc, sampleAt_commit_cursor N maxch hN _ _ _ hx]
        simp
      · have hk1 : k < xs.length := by omega
        have hne : k % N ≠ (appendAll N st0 xs).sample_cursor := by
          rw [ihc]
          intro heq
          have h1 : (xs.length - k) % N = 0 := by
            have := Nat.sub_mod_eq_zero_of_mod_eq heq.symm
            exact this
          have h2 : xs.length - k < N := by omega
          rw [Nat.mod_eq_of_lt h2] at h1
          omega
        rw [sampleAt_commit_other N maxch _ _ _ _ (Nat.mod_lt _ hN) hcur hne,
          List.getElem?_append_left hk1]
        exact ihs k hk1 (by omega)

theorem latest_slot_eq (N len : Nat) (hlen : 1 ≤ len) :
    (len % N + N - 1) % N = (len - 1) % N := by
  rcases Nat.eq_zero_or_pos N with h | h
  · subst h
    simp only [Nat.mod_zero, Nat.add_zero]
  · rw [Nat.add_sub_assoc h, Nat.mod_add_mod,
      show len + (N - 1) = len - 1 + N by omega, Nat.add_mod_right]

/-- C4. From cursor `0`, for every capacity `N >= 1` and every run `xs` of appends of
`max_channels` values each: every append moves the cursor to `(c + 1) mod N`, which is
below `N`; after the run the cursor is the number of appends modulo `N`; when the run has
between `1` and `N` appends, slot `(c - 1 + N) mod N` holds the last one and slots
`0 .. m - 1` hold the appends in order; when it has `N + j` appends, the slots
`c, c + 1, ...` (modulo `N`) hold the last `N` appends in order, slot `(c - 1 + N) mod N`
the most recent and slot `c` the oldest of them. -/
theorem ring_buffer_appends {F : Type} (N maxch : Nat) (st0 : PlotState F)
    (xs : List (Nat × List F)) (hN : 0 < N) (h0 : st0.sample_cursor = 0)
    (hch : ∀ x ∈ xs, x.2.length = maxch) :
    (∀ (st : PlotState F) (t : Nat) (ch : List F),
      (commitSample N st t ch).sample_cursor = (st.sample_cursor + 1) % N ∧
        (commitSample N st t ch).sample_cursor < N) ∧
    (appendAll N st0 xs).sample_cursor = xs.length % N ∧
    (appendAll N st0 xs).sample_cursor < N ∧
    (1 ≤ xs.length → xs.length ≤ N →
      xs[xs.length - 1]? = some (sampleAt N maxch (appendAll N st0 xs)
        (((appendAll N st0 xs).sample_cursor + N - 1) % N)) ∧
      ∀ i, i < xs.length → xs[i]? = some (sampleAt N maxch (appendAll N st0 xs) i)) ∧
    (∀ j, xs.length = N + j →
      (∀ i, i < N → xs[j + i]? = some (sampleAt N maxch (appendAll N st0 xs)
        (((appendAll N st0 xs).sample_cursor + i) % N))) ∧
      xs[N + j - 1]? = some (sampleAt N maxch (appendAll N st0 xs)
        (((appendAll N st0 xs).sample_cursor + N - 1) % N)) ∧
      xs[j]? = some (sampleAt N maxch (appendAll N st0 xs)
        (appendAll N st0 xs).sample_cursor)) := by
  obtain ⟨hc, hs⟩ := appendAll_slots N maxch hN st0 h0 xs hch
  refine ⟨?_, hc, ?_, ?_, ?_⟩
  · intro st t ch
    exact ⟨rfl, Nat.mod_lt _ hN⟩
  · rw [hc]; exact Nat.mod_lt _ hN
  · intro h1 h2
    refine ⟨?_, ?_⟩
    · rw [hc, latest_slot_eq N xs.length h1]
      exact hs (xs.length - 1) (by omega) (by omega)
    · intro i hi
      have := hs i hi (by omega)
      rwa [Nat.mod_eq_of_lt (by omega)] at this
  · intro j hj
    have hslot : ∀ i, (xs.length % N + i) % N = (j + i) % N := by
      intro i
      rw [Nat.mod_add_mod, hj, Nat.add_assoc, Nat.add_mod_left]
    refine ⟨?_, ?_, ?_⟩
    · intro i hi
      rw [hc, hslot i]
      exact hs (j + i) (by omega) (by omega)
    · rw [hc, latest_slot_eq N xs.length (by omega), hj]
      exact hs (N + j - 1) (by omega) (by omega)
    · have := hs j (by omega) (by omega)
      have h2 := hslot 0
      simp only [Nat.add_zero, Nat.mod_mod] at h2
      rwa [hc, h2]

/-! ## The window -/

theorem walk_eq_rotate (N c : Nat) :
    (List.range N).map (fun i => (c + i) % N) = (List.range N).rotate (c % N) := by
  apply List.ext_getElem
  · simp
  · intro i h1 h2
    simp only [List.length_map, List.length_range] at h1
    simp only [List.getElem_map, List.getElem_range, List.getElem_rotate, List.length_range]
    rw [Nat.add_mod_mod, Nat.add_comm]

theorem mem_walk (N c : Nat) (si : Nat) :
    si ∈ (List.range N).map (fun i => (c + i) % N) ↔ si < N := by
  rw [walk_eq_rotate, List.mem_rotate, List.mem_range]

/-! ## The window after sorted appends -/

theorem sub64_self (a : Nat) : sub64 a a = 0 := by
  unfold sub64
  omega

theorem sub64_of_le {a b : Nat} (hb : b ≤ a) (ha : a < 2 ^ 64) : sub64 a b = a - b := by
  unfold sub64
  omega

theorem filter_eq_drop_of_mono {α : Type} (p : α → Bool) (l : List α)
    (h : l.Pairwise (fun a b => p a = true → p b = true)) :
    ∃ k, l.filter p = l.drop k ∧ (l.filter p ≠ [] → k < l.length) := by
  induction l with
  | nil => exact ⟨0, rfl, fun h => absurd rfl h⟩
  | cons a l ih =>
    rw [List.pairwise_cons] at h
    by_cases ha : p a = true
    · refine ⟨0, ?_, fun _ => by simp⟩
      rw [List.filter_cons_of_pos ha, List.drop_zero]
      congr 1
      rw [List.filter_eq_self]
      intro b hb
      exact h.1 b hb ha
    · obtain ⟨k, hk, hlt⟩ := ih h.2
      refine ⟨k + 1, ?_, ?_⟩
      · rw [List.filter_cons_of_neg ha, List.drop_succ_cons, hk]
      · rw [List.filter_cons_of_neg ha]
        intro hne
        have := hlt hne
        simp only [List.length_cons]
        omega

/-! ## The coordinate mapping -/

theorem toU64_of_nonneg {W : Int} (h0 : 0 ≤ W) (h1 : W < 2 ^ 31) : toU64 W = W.toNat := by
  unfold toU64
  rw [Int.emod_eq_of_lt h0 (by omega)]

theorem toInt32_of_lt {n : Nat} (h : n < 2 ^ 31) : toInt32 n = (n : Int) := by
  unfold toInt32
  have : n % 2 ^ 32 = n := Nat.mod_eq_of_lt (by omega)
  rw [this, if_pos h]

/-- The abscissa of a sample in the window, when the product does not overflow. -/
theorem xCoord_in_window (W : Int) (now t D : Nat) (hW0 : 0 ≤ W) (hW : W < 2 ^ 31)
    (hD : 0 < D) (hwin : sub64 now t ≤ D) (hov : sub64 now t * W.toNat < 2 ^ 64) :
    xCoord W now t D = some (W - ((sub64 now t * W.toNat / D : Nat) : Int)) ∧
      sub64 now t * W.toNat / D ≤ W.toNat := by
  have hq : sub64 now t * W.toNat / D ≤ W.toNat := by
    apply Nat.div_le_of_le_mul
    exact Nat.mul_le_mul_right _ hwin
  refine ⟨?_, hq⟩
  unfold xCoord
  rw [if_neg (by omega), toU64_of_nonneg hW0 hW, Nat.mod_eq_of_lt hov]
  generalize sub64 now t * W.toNat / D = q at hq ⊢
  have hw : W.toNat < 2 ^ 31 := by omega
  have hs : sub64 W.toNat q = W.toNat - q := by
    unfold sub64
    omega
  rw [hs, toInt32_of_lt (by omega)]
  congr 1
  omega

/-! ## Binary32 rounding -/

theorem log2Fuel_eq (fuel k : Nat) (h : k ≤ fuel) : log2Fuel fuel k = Nat.log2 k := by
  induction fuel generalizing k with
  | zero =>
    have : k = 0 := by omega
    subst this
    rw [log2Fuel, Nat.log2]
    simp
  | succ f ih =>
    rw [log2Fuel, Nat.log2]
    by_cases h2 : 2 ≤ k
    · rw [if_pos h2, if_pos h2, ih (k / 2) (by omega)]
    · rw [if_neg h2, if_neg h2]

theorem log2Floor_eq (n : Nat) : log2Floor n = Nat.log2 n :=
  log2Fuel_eq n n (le_refl n)

theorem F32.pack_num {neg : Bool} {m : Nat} {e : Int} (hm : 0 < m) (h24 : m < 2 ^ 24)
    (hmag : e + (Nat.log2 m : Int) + 1 ≤ 128) : F32.pack neg m e = .num neg m e := by
  unfold F32.pack
  have h1 : m ≠ 0 := by omega
  have h2 : ¬ (e ≥ 0 ∧ m * 2 ^ e.toNat ≥ 2 ^ 128) := by
    rintro ⟨he, hov⟩
    have hlt : m < 2 ^ (Nat.log2 m + 1) := Nat.lt_log2_self
    have hpow : m * 2 ^ e.toNat < 2 ^ (Nat.log2 m + 1) * 2 ^ e.toNat :=
      Nat.mul_lt_mul_of_pos_right hlt (by positivity)
    rw [← pow_add] at hpow
    have hle : Nat.log2 m + 1 + e.toNat ≤ 128 := by omega
    have := Nat.pow_le_pow_right (n := 2) (by decide) hle
    omega
  have h3 : m ≠ 2 ^ 24 := by omega
  rw [if_neg h1, if_neg h2, if_neg h3]

/-- Rounding leaves a binary32 number as it is. -/
theorem roundF32_wf {neg : Bool} {m : Nat} {e : Int} (h : (F32.num neg m e).wf = true) :
    roundF32 neg m e = .num neg m e := by
  simp only [F32.wf, log2Floor_eq, Bool.and_eq_true, decide_eq_true_eq] at h
  obtain ⟨⟨⟨hm, h24⟩, he⟩, hmag⟩ := h
  have hlog : Nat.log2 m < 24 := (Nat.log2_lt (by omega)).2 h24
  unfold roundF32
  simp only [log2Floor_eq]
  rw [if_pos (by omega)]
  exact F32.pack_num hm h24 hmag

theorem F32.pack_wf (neg : Bool) (m : Nat) (e : Int) (h24 : m ≤ 2 ^ 24) (he : -149 ≤ e) :
    (F32.pack neg m e).wf = true := by
  unfold F32.pack
  split
  · rfl
  · rename_i hm
    split
    · rfl
    · rename_i hov
      have hmag : ∀ L : Nat, 2 ^ L ≤ m → e + (L : Int) + 1 ≤ 128 := by
        intro L hL
        by_contra hcon
        apply hov
        have he0 : 0 ≤ e := by
          have : L < 25 := by
            by_contra h25
            have := Nat.pow_le_pow_right (n := 2) (by decide) (show 25 ≤ L by omega)
            omega
          omega
        refine ⟨he0, ?_⟩
        have h1 : 2 ^ L * 2 ^ e.toNat ≤ m * 2 ^ e.toNat := Nat.mul_le_mul_right _ hL
        rw [← pow_add] at h1
        have h2 := Nat.pow_le_pow_right (n := 2) (by decide) (show 128 ≤ L + e.toNat by omega)
        omega
      split
      · rename_i h
        have := hmag 24 (by omega)
        have hl : Nat.log2 (2 ^ 23) = 23 := by
          rw [Nat.log2_two_pow]
        simp only [F32.wf, log2Floor_eq, hl, Bool.and_eq_true, decide_eq_true_eq]
        omega
      · rename_i h
        have := hmag (Nat.log2 m) (Nat.log2_self_le hm)
        simp only [F32.wf, log2Floor_eq, Bool.and_eq_true, decide_eq_true_eq]
        omega

theorem F32.pack_nonzero (neg : Bool) (m : Nat) (e : Int) (hm : m ≠ 0) :
    (F32.pack neg m e).isNonzero = true := by
  unfold F32.pack
  rw [if_neg hm]
  split
  · rfl
  · split
    · simp [F32.isNonzero]
    · simp only [F32.isNonzero, decide_eq_true_eq]
      omega

/-- What the rounding drops: with `k` bits dropped from a number of `L + 1` bits, at least
`L - 23` of them, at most 24 bits are left, and at least 24 when `k` is `L - 23`. -/
theorem round_quotient_bounds (m k : Nat) (hm : m ≠ 0) (hk : Nat.log2 m + 1 ≤ 24 + k) :
    m / 2 ^ k < 2 ^ 24 ∧ (Nat.log2 m + 1 = 24 + k → 2 ^ 23 ≤ m / 2 ^ k) := by
  have hlt : m < 2 ^ (Nat.log2 m + 1) := Nat.lt_log2_self
  have hle : 2 ^ Nat.log2 m ≤ m := Nat.log2_self_le hm
  constructor
  · rw [Nat.div_lt_iff_lt_mul (by positivity), ← pow_add]
    exact lt_of_lt_of_le hlt (Nat.pow_le_pow_right (by decide) hk)
  · intro heq
    rw [Nat.le_div_iff_mul_le (by positivity), ← pow_add]
    have : 23 + k = Nat.log2 m := by omega
    rw [this]
    exact hle

/-- The result of a rounding is a binary32 value. -/
theorem roundF32_result_wf (neg : Bool) (m : Nat) (e : Int) :
    (roundF32 neg m e).wf = true := by
  unfold roundF32
  simp only [log2Floor_eq]
  split
  · rename_i hs
    rcases Nat.eq_zero_or_pos m with h0 | hpos
    · subst h0
      simp [F32.pack, F32.wf]
    · have hlog : Nat.log2 m < 24 := by omega
      have h24 : m < 2 ^ 24 := (Nat.log2_lt (by omega)).1 hlog
      exact F32.pack_wf neg m e (by omega) (by omega)
  · rename_i hs
    rcases Nat.eq_zero_or_pos m with h0 | hpos
    · subst h0
      have hz : ∀ k : Nat, (0 : Nat) / 2 ^ k = 0 ∧ (0 : Nat) % 2 ^ k = 0 := by
        intro k; simp
      simp only [(hz _).1, (hz _).2]
      have hp : ∀ k : Nat, ¬ (2 * 0 > 2 ^ k ∨ (2 * 0 = 2 ^ k ∧ 0 % 2 = 1)) := by
        intro k
        have : 0 < 2 ^ k := by positivity
        omega
      rw [if_neg (hp _)]
      simp [F32.pack, F32.wf]
    · have hb := (round_quotient_bounds m
        (max ((Nat.log2 m : Int) + 1 - 24) (-149 - e)).toNat (by omega) (by omega)).1
      apply F32.pack_wf
      · split <;> omega
      · omega

theorem roundF32_nonzero (neg : Bool) (m : Nat) (e : Int) (hm : m ≠ 0) (he : -149 ≤ e) :
    (roundF32 neg m e).isNonzero = true := by
  unfold roundF32
  simp only [log2Floor_eq]
  split
  · exact F32.pack_nonzero neg m e hm
  · rename_i hs
    have hmax : max ((Nat.log2 m : Int) + 1 - 24) (-149 - e) = (Nat.log2 m : Int) + 1 - 24 := by
      omega
    have hb := (round_quotient_bounds m
      (max ((Nat.log2 m : Int) + 1 - 24) (-149 - e)).toNat hm (by omega)).2 (by omega)
    apply F32.pack_nonzero
    split <;> omega

/-! ### The operations at the edges -/

theorem F32.sub_self (x : F32) (h : x.isFinite = true) : F32.sub x x = .zero false := by
  cases x with
  | zero s => cases s <;> rfl
  | num s m e => simp [F32.sub]
  | inf s => simp [F32.isFinite] at h
  | nan => simp [F32.isFinite] at h

theorem F32.commonExpo_ge (a b : F32) (ha : a.wf = true) (hb : b.wf = true) :
    -149 ≤ F32.commonExpo a b := by
  cases a <;> cases b <;>
    simp only [F32.commonExpo, F32.expo, F32.wf, Bool.and_eq_true, decide_eq_true_eq] at * <;>
    omega

/-- Two finite binary32 values that are not equal have a non-zero difference. -/
theorem F32.sub_nonzero (a b : F32) (ha : a.isFinite = true) (hb : b.isFinite = true)
    (hwa : a.wf = true) (hwb : b.wf = true) (hne : F32.eq a b = false) :
    (F32.sub a b).isNonzero = true := by
  have hce := F32.commonExpo_ge a b hwa hwb
  have key : ∀ d : Int, d ≠ 0 →
      (if d = 0 then F32.zero false
        else roundF32 (decide (d < 0)) d.natAbs (F32.commonExpo a b)).isNonzero = true := by
    intro d hd
    rw [if_neg hd]
    exact roundF32_nonzero _ _ _ (by omega) hce
  cases a with
  | zero s1 =>
    cases b with
    | zero s2 => simp [F32.eq, F32.scaled] at hne
    | num s2 m2 e2 =>
      have hd : F32.scaled (F32.commonExpo (.zero s1) (.num s2 m2 e2)) (.zero s1) -
          F32.scaled (F32.commonExpo (.zero s1) (.num s2 m2 e2)) (.num s2 m2 e2) ≠ 0 := by
        intro h
        simp only [F32.eq, decide_eq_false_iff_not] at hne
        apply hne
        omega
      exact key _ hd
    | inf s2 => simp [F32.isFinite] at hb
    | nan => simp [F32.isFinite] at hb
  | num s1 m1 e1 =>
    cases b with
    | zero s2 =>
      have hd : F32.scaled (F32.commonExpo (.num s1 m1 e1) (.zero s2)) (.num s1 m1 e1) -
          F32.scaled (F32.commonExpo (.num s1 m1 e1) (.zero s2)) (.zero s2) ≠ 0 := by
        intro h
        simp only [F32.eq, decide_eq_false_iff_not] at hne
        apply hne
        omega
      exact key _ hd
    | num s2 m2 e2 =>
      have hd : F32.scaled (F32.commonExpo (.num s1 m1 e1) (.num s2 m2 e2)) (.num s1 m1 e1) -
          F32.scaled (F32.commonExpo (.num s1 m1 e1) (.num s2 m2 e2)) (.num s2 m2 e2) ≠ 0 := by
        intro h
        simp only [F32.eq, decide_eq_false_iff_not] at hne
        apply hne
        omega
      exact key _ hd
    | inf s2 => simp [F32.isFinite] at hb
    | nan => simp [F32.isFinite] at hb
  | inf s => simp [F32.isFinite] at ha
  | nan => simp [F32.isFinite] at ha

theorem F32.div_zero_left (d : F32) (h : d.isNonzero = true) :
    ∃ s, F32.div (.zero false) d = .zero s := by
  cases d with
  | zero s => simp [F32.isNonzero] at h
  | num s m e => exact ⟨_, rfl⟩
  | inf s => exact ⟨_, rfl⟩
  | nan => simp [F32.isNonzero] at h

theorem F32.one_sub_zero (s : Bool) : F32.sub F32.one (.zero s) = F32.one := by
  cases s <;> decide

/-- A finite non-zero number divided by itself is `1`. -/
theorem F32.div_self (s : Bool) (m : Nat) (e : Int) (hm : 0 < m) :
    F32.div (.num s m e) (.num s m e) = .num false (2 ^ 23) (-23) := by
  have hq : m * 2 ^ (27 + Nat.log2 m) / m = 2 ^ (27 + Nat.log2 m) :=
    Nat.mul_div_cancel_left _ hm
  have hr : m * 2 ^ (27 + Nat.log2 m) % m = 0 := Nat.mul_mod_right _ _
  have hx : xor s s = false := by cases s <;> rfl
  simp only [F32.div, log2Floor_eq, hq, hr, if_true, Nat.add_zero, hx]
  have hk : 27 ≤ 27 + Nat.log2 m := by omega
  generalize 27 + Nat.log2 m = k at hk
  have h2 : 2 * 2 ^ k = 2 ^ (k + 1) := by rw [pow_succ]; omega
  rw [h2]
  unfold roundF32
  simp only [log2Floor_eq, Nat.log2_two_pow]
  have hs : max (((k + 1 : Nat) : Int) + 1 - 24) (-149 - (e - e - (k : Int) - 1)) =
      ((k + 1 : Nat) : Int) + 1 - 24 := by
    omega
  have hpos : ¬ (((k + 1 : Nat) : Int) + 1 - 24 ≤ 0) := by omega
  rw [hs, if_neg hpos]
  have hto : (((k + 1 : Nat) : Int) + 1 - 24).toNat = k - 22 := by omega
  rw [hto]
  have hq2 : 2 ^ (k + 1) / 2 ^ (k - 22) = 2 ^ 23 := by
    rw [Nat.pow_div (by omega) (by decide)]
    congr 1
    omega
  have hr2 : 2 ^ (k + 1) % 2 ^ (k - 22) = 0 := by
    apply Nat.mod_eq_zero_of_dvd
    exact pow_dvd_pow 2 (by omega)
  rw [hq2, hr2]
  have hpk : 0 < 2 ^ (k - 22) := by positivity
  have hc : ¬ (2 * 0 > 2 ^ (k - 22) ∨ (2 * 0 = 2 ^ (k - 22) ∧ 2 ^ 23 % 2 = 1)) := by
    omega
  rw [if_neg hc]
  have he : e - e - (k : Int) - 1 + (((k + 1 : Nat) : Int) + 1 - 24) = -23 := by omega
  rw [he]
  decide

theorem F32.mul_one_left (x : F32) (h : x.wf = true) : F32.mul F32.one x = x := by
  cases x with
  | zero s => cases s <;> rfl
  | num s m e =>
    have h1 : xor false s = s := by cases s <;> rfl
    simp only [F32.mul, F32.one, Nat.one_mul, Int.zero_add, h1]
    exact roundF32_wf h
  | inf s => cases s <;> rfl
  | nan => rfl

theorem F32.pack_isFinite (neg : Bool) (m : Nat) (e : Int)
    (h : m * 2 ^ e.toNat < 2 ^ 128) : (F32.pack neg m e).isFinite = true := by
  unfold F32.pack
  split
  · rfl
  · split
    · rename_i hov
      omega
    · split <;> rfl

/-- The conversion of an `int` is finite. -/
theorem F32.ofInt_isFinite (n : Int) (h : n.natAbs ≤ 2 ^ 31) :
    (F32.ofInt n).isFinite = true := by
  unfold F32.ofInt
  split
  · rfl
  · rename_i hn
    have hm : n.natAbs ≠ 0 := by omega
    have hlog : Nat.log2 n.natAbs < 32 := (Nat.log2_lt hm).2 (by omega)
    unfold roundF32
    simp only [log2Floor_eq]
    split
    · apply F32.pack_isFinite
      simp only [Int.toNat_zero, pow_zero, Nat.mul_one]
      omega
    · rename_i hs
      have hb := (round_quotient_bounds n.natAbs
        (max ((Nat.log2 n.natAbs : Int) + 1 - 24) (-149 - 0)).toNat hm (by omega)).1
      apply F32.pack_isFinite
      have hk : (0 + max ((Nat.log2 n.natAbs : Int) + 1 - 24) (-149 - 0)).toNat ≤ 8 := by omega
      have hp : 2 ^ (0 + max ((Nat.log2 n.natAbs : Int) + 1 - 24) (-149 - 0)).toNat ≤ 2 ^ 8 :=
        Nat.pow_le_pow_right (by decide) hk
      have hq : ∀ q1 : Nat, q1 ≤ 2 ^ 24 →
          q1 * 2 ^ (0 + max ((Nat.log2 n.natAbs : Int) + 1 - 24) (-149 - 0)).toNat <
            2 ^ 128 := by
        intro q1 hq1
        calc q1 * 2 ^ (0 + max ((Nat.log2 n.natAbs : Int) + 1 - 24) (-149 - 0)).toNat
            ≤ 2 ^ 24 * 2 ^ 8 := Nat.mul_le_mul hq1 hp
          _ < 2 ^ 128 := by decide
      apply hq
      split <;> omega

/-- An `int` of magnitude at most `2 ^ 24` survives the conversion to `float` and back. -/
theorem F32.toInt_ofInt (n : Int) (h : n.natAbs ≤ 2 ^ 24) :
    F32.toInt (F32.ofInt n) = some n := by
  by_cases hz : n = 0
  · subst hz
    rfl
  · by_cases h24 : n.natAbs = 2 ^ 24
    · have hn : n = 2 ^ 24 ∨ n = -(2 ^ 24) := by omega
      rcases hn with hn | hn <;> subst hn <;> decide
    · have hlt : n.natAbs < 2 ^ 24 := by omega
      have hwf : (F32.num (decide (n < 0)) n.natAbs 0).wf = true := by
        have hlog : Nat.log2 n.natAbs < 24 := (Nat.log2_lt (by omega)).2 hlt
        simp only [F32.wf, log2Floor_eq, Bool.and_eq_true, decide_eq_true_eq]
        omega
      unfold F32.ofInt
      rw [if_neg hz, roundF32_wf hwf]
      simp only [F32.toInt, ge_iff_le, le_refl, if_true, Int.toNat_zero, pow_zero, Nat.mul_one]
      by_cases hneg : n < 0
      · simp only [hneg, decide_True, if_true]
        rw [if_pos (by omega)]
        congr 1
        omega
      · simp only [hneg, decide_False, if_false, Bool.false_eq_true]
        rw [if_pos (by omega)]
        congr 1
        omega

theorem F32.mul_zero_left (s : Bool) (x : F32) (h : x.isFinite = true) :
    ∃ s1, F32.mul (.zero s) x = .zero s1 := by
  cases x with
  | zero s2 => exact ⟨_, rfl⟩
  | num s2 m e => exact ⟨_, rfl⟩
  | inf s2 => simp [F32.isFinite] at h
  | nan => simp [F32.isFinite] at h

/-- The ordinate of a sample at the upper bound. -/
theorem yCoord_upper (value_lower value_upper : F32) (view_height : Int)
    (hH : view_height.natAbs ≤ 2 ^ 31)
    (hd : (F32.sub value_upper value_lower).isFinite = true)
    (hnz : (F32.sub value_upper value_lower).isNonzero = true) :
    yCoord value_upper value_lower value_upper view_height = some 0 := by
  unfold yCoord
  cases hsub : F32.sub value_upper value_lower with
  | zero s => rw [hsub] at hnz; simp [F32.isNonzero] at hnz
  | num s m e =>
    rw [hsub] at hnz
    simp only [F32.isNonzero, decide_eq_true_eq] at hnz
    rw [F32.div_self s m e hnz]
    have h1 : F32.sub F32.one (.num false (2 ^ 23) (-23)) = .zero false := by decide
    rw [h1]
    obtain ⟨s1, hs1⟩ := F32.mul_zero_left false (F32.ofInt view_height)
      (F32.ofInt_isFinite view_height hH)
    rw [hs1]
    rfl
  | inf s => rw [hsub] at hd; simp [F32.isFinite] at hd
  | nan => rw [hsub] at hd; simp [F32.isFinite] at hd

/-- The ordinate of a sample at the lower bound: `view_height` converted to `float` and
back to `int`. -/
theorem yCoord_lower (value_lower value_upper : F32) (view_height : Int)
    (hl : value_lower.isFinite = true)
    (hnz : (F32.sub value_upper value_lower).isNonzero = true) :
    yCoord value_lower value_lower value_upper view_height =
      F32.toInt (F32.ofInt view_height) := by
  unfold yCoord
  rw [F32.sub_self value_lower hl]
  obtain ⟨s, hs⟩ := F32.div_zero_left _ hnz
  rw [hs, F32.one_sub_zero, F32.mul_one_left]
  unfold F32.ofInt
  split
  · rfl
  · exact roundF32_result_wf _ _ _

/-- C8 (amended). For every `view_width >= 0` and `view_height` (each an `int`), every
`display_period > 0` and finite binary32 bounds with `value_upper != value_lower`: a
sample with `timestamp = now` maps to `x = view_width`; a sample with
`value = value_upper` maps to `y = 0` whenever the difference `value_upper - value_lower`
does not overflow; a sample with `value = value_lower` maps to `y` = `view_height`
converted to `float` and back to `int`, which is `view_height` itself whenever
`|view_height| <= 2 ^ 24`. -/
theorem coordinate_edges (view_width view_height : Int) (now display_period : Nat)
    (value_lower value_upper : F32) (hW0 : 0 ≤ view_width) (hW : view_width < 2 ^ 31)
    (hD : 0 < display_period) (hH0 : -(2 ^ 31) ≤ view_height) (hH : view_height < 2 ^ 31)
    (hl : value_lower.isFinite = true) (hlw : value_lower.wf = true)
    (hu : value_upper.isFinite = true) (huw : value_upper.wf = true)
    (hne : F32.eq value_upper value_lower = false) :
    xCoord view_width now now display_period = some view_width ∧
    ((F32.sub value_upper value_lower).isFinite = true →
      yCoord value_upper value_lower value_upper view_height = some 0) ∧
    yCoord value_lower value_lower value_upper view_height =
      F32.toInt (F32.ofInt view_height) ∧
    (-(2 ^ 24) ≤ view_height → view_height ≤ 2 ^ 24 →
      yCoord value_lower value_lower value_upper view_height = some view_height) := by
  have hx := (xCoord_in_window view_width now now display_period hW0 hW hD
    (by rw [sub64_self]; omega) (by rw [sub64_self]; simp)).1
  have hnz := F32.sub_nonzero value_upper value_lower hu hl huw hlw hne
  have hlow := yCoord_lower value_lower value_upper view_height hl hnz
  refine ⟨?_, ?_, hlow, ?_⟩
  · rw [hx, sub64_self]
    simp
  · intro hd
    exact yCoord_upper value_lower value_upper view_height (by omega) hd hnz
  · intro h1 h2
    rw [hlow]
    exact F32.toInt_ofInt view_height (by omega)

/-- With `display_period = 0` a channel pass reaches the division by zero as soon as a
slot gets past the filter. -/
theorem renderLoop_zero_period {F : Type} (N : Nat) (st : PlotState F) (c : Nat)
    (W p : Int) (now : Nat) (n s : Nat) (acc : ChannelPass F)
    (h : ∃ i, i < n ∧ sub64 now (st.sample_timestamp_buffer ((s + i) % N)) ≤ 0) :
    renderLoop N st c W p now 0 n s acc = none := by
  induction n generalizing s acc with
  | zero =>
    obtain ⟨i, hi, _⟩ := h
    omega
  | succ n ih =>
    obtain ⟨i, hi, hpass⟩ := h
    rw [renderLoop]
    by_cases hf : sub64 now (st.sample_timestamp_buffer (s % N)) > 0
    · simp only [hf, if_true]
      apply ih
      cases i with
      | zero =>
        simp only [Nat.add_zero] at hpass
        omega
      | succ i =>
        refine ⟨i, by omega, ?_⟩
        rw [show s + 1 + i = s + (i + 1) by omega]
        exact hpass
    · simp only [hf, if_false, renderSample, xCoord, if_true]

/-- With `display_period = 0` no channel pass over a buffer of capacity `N >= 1` runs to
its end: the latest slot, if no slot before it, gets past the filter. -/
theorem renderChannel_zero_period {F : Type} (N : Nat) (st : PlotState F) (c : Nat)
    (view_width p : Int) (zero : F) (hN : 0 < N) :
    renderChannel N st c view_width p 0 zero = none := by
  unfold renderChannel
  apply renderLoop_zero_period
  refine ⟨N - 1, by omega, ?_⟩
  have : st.sample_cursor + (N - 1) = st.sample_cursor + N - 1 := by omega
  rw [this]
  unfold nowOf
  rw [sub64_self]

/-- C10. For `0 <= view_width` (an `int`): with `display_period > 0`, every in-window
sample whose product `(now - t) * view_width` stays below `2 ^ 64` has an abscissa `x`
with `0 <= x <= view_width`, and for `t1 <= t2 <= now` the abscissa of `t1` is at most
that of `t2`; with `display_period = 0` the sample with `t = now` gets past the window
filter and the division has no result, so that every channel pass over a buffer of
capacity `N >= 1` stops there. -/
theorem x_coordinate_bounds (view_width : Int) (now : Nat) (hW0 : 0 ≤ view_width)
    (hW : view_width < 2 ^ 31) :
    (∀ D t, 0 < D → sub64 now t ≤ D → sub64 now t * view_width.toNat < 2 ^ 64 →
      ∃ x, xCoord view_width now t D = some x ∧ 0 ≤ x ∧ x ≤ view_width) ∧
    (∀ D t1 t2, 0 < D → now < 2 ^ 64 → t1 ≤ t2 → t2 ≤ now → sub64 now t1 ≤ D →
      sub64 now t1 * view_width.toNat < 2 ^ 64 →
      ∃ x1 x2, xCoord view_width now t1 D = some x1 ∧
        xCoord view_width now t2 D = some x2 ∧ x1 ≤ x2) ∧
    (sub64 now now ≤ 0 ∧ xCoord view_width now now 0 = none) ∧
    (∀ (F : Type) (N : Nat) (st : PlotState F) (c : Nat) (p : Int) (zero : F), 0 < N →
      renderChannel N st c view_width p 0 zero = none) := by
  refine ⟨?_, ?_, ⟨by rw [sub64_self], rfl⟩, ?_⟩
  · intro D t hD hwin hov
    obtain ⟨hx, hq⟩ := xCoord_in_window view_width now t D hW0 hW hD hwin hov
    generalize sub64 now t * view_width.toNat / D = q at hx hq
    exact ⟨_, hx, by omega, by omega⟩
  · intro D t1 t2 hD hnow h12 h2 hwin hov
    have hd1 : sub64 now t1 = now - t1 := sub64_of_le (by omega) hnow
    have hd2 : sub64 now t2 = now - t2 := sub64_of_le h2 hnow
    have hle : sub64 now t2 ≤ sub64 now t1 := by omega
    have hmul : sub64 now t2 * view_width.toNat ≤ sub64 now t1 * view_width.toNat :=
      Nat.mul_le_mul_right _ hle
    obtain ⟨hx1, _⟩ := xCoord_in_window view_width now t1 D hW0 hW hD hwin hov
    obtain ⟨hx2, _⟩ := xCoord_in_window view_width now t2 D hW0 hW hD (by omega)
      (by omega)
    refine ⟨_, _, hx1, hx2, ?_⟩
    have := Nat.div_le_div_right (c := D) hmul
    generalize sub64 now t2 * view_width.toNat / D = q2 at this
    generalize sub64 now t1 * view_width.toNat / D = q1 at this
    omega
  · intro F N st c p zero hN
    exact renderChannel_zero_period N st c view_width p zero hN

/-! ## The cursor locator -/

theorem crossingFrom_nil {F : Type} (p : Int) (now : Nat) (lx0 : Int) (zero : F) :
    crossingFrom p now lx0 zero [] = zero := rfl

theorem crossingFrom_cons {F : Type} (p : Int) (now : Nat) (lx0 : Int) (zero : F)
    (smp : Int × Nat × F) (rest : List (Int × Nat × F)) :
    crossingFrom p now lx0 zero (smp :: rest) =
      crossingFrom p now (floatOfInt smp.1)
        (if lx0 < floatOfInt p ∧ (smp.1 ≥ p ∨ smp.2.1 = now) then smp.2.2 else zero)
        rest := by
  unfold crossingFrom
  simp only [List.map_cons, List.zip_cons_cons]
  by_cases hc : lx0 < floatOfInt p ∧ (smp.1 ≥ p ∨ smp.2.1 = now)
  · rw [List.filter_cons_of_pos (by simpa using hc), if_pos hc, List.getLast?_cons]
    generalize ((List.zip (floatOfInt smp.1 :: rest.map (fun s => floatOfInt s.1)) rest).filter
      (fun q => decide (q.1 < floatOfInt p) &&
        (decide (q.2.1 ≥ p) || decide (q.2.2.1 = now)))).getLast? = o
    cases o <;> rfl
  · rw [List.filter_cons_of_neg (by simpa using hc), if_neg hc]

/-- The channel loop with a positive display period: it runs to its end, looks at the
slots in walk order, draws those that the filter lets through, and leaves the crossing
value as highlighted value. -/
theorem renderLoop_eq {F : Type} (N : Nat) (st : PlotState F) (c : Nat) (W p : Int)
    (now D : Nat) (hD : 0 < D) (n s : Nat) (acc : ChannelPass F) :
    ∃ lx pc, renderLoop N st c W p now D n s acc = some
      { lx := lx
        pc := pc
        highlighted := crossingFrom p now acc.lx acc.highlighted
          ((((List.range n).map (fun i => (s + i) % N)).filter
            (fun si => decide (sub64 now (st.sample_timestamp_buffer si) ≤ D))).map
            (fun si => (xOf W now (st.sample_timestamp_buffer si) D,
              st.sample_timestamp_buffer si, st.sample_value_buffer (c * N + si))))
        considered := acc.considered ++ (List.range n).map (fun i => (s + i) % N)
        selected := acc.selected ++ ((List.range n).map (fun i => (s + i) % N)).filter
          (fun si => decide (sub64 now (st.sample_timestamp_buffer si) ≤ D)) } := by
  induction n generalizing s acc with
  | zero => exact ⟨acc.lx, acc.pc, by simp [renderLoop, crossingFrom_nil]⟩
  | succ n ih =>
    have hr : (List.range (n + 1)).map (fun i => (s + i) % N) =
        s % N :: (List.range n).map (fun i => (s + 1 + i) % N) := by
      rw [List.range_succ_eq_map, List.map_cons, List.map_map]
      simp only [Nat.add_zero, List.cons.injEq, true_and]
      apply List.map_congr_left
      intro i _
      simp only [Function.comp, Nat.succ_eq_add_one]
      congr 1
      omega
    rw [renderLoop, hr]
    by_cases h : sub64 now (st.sample_timestamp_buffer (s % N)) > D
    · have h2 : ¬ sub64 now (st.sample_timestamp_buffer (s % N)) ≤ D := by omega
      obtain ⟨lx, pc, hih⟩ := ih (s + 1) { acc with considered := acc.considered ++ [s % N] }
      refine ⟨lx, pc, ?_⟩
      simp only [h, if_true, hih, List.filter_cons, h2, decide_False, Bool.false_eq_true,
        if_false, List.append_assoc, List.singleton_append]
    · have h2 : sub64 now (st.sample_timestamp_buffer (s % N)) ≤ D := by omega
      have hx : xCoord W now (st.sample_timestamp_buffer (s % N)) D =
          some (xOf W now (st.sample_timestamp_buffer (s % N)) D) := by
        unfold xOf xCoord
        rw [if_neg (by omega)]
        rfl
      simp only [h, if_false, renderSample, hx]
      obtain ⟨lx, pc, hih⟩ := ih (s + 1)
        { lx := floatOfInt (xOf W now (st.sample_timestamp_buffer (s % N)) D)
          pc := acc.pc + 1
          highlighted :=
            if acc.lx < floatOfInt p ∧
                (xOf W now (st.sample_timestamp_buffer (s % N)) D ≥ p ∨
                  st.sample_timestamp_buffer (s % N) = now) then
              st.sample_value_buffer (c * N + s % N)
            else acc.highlighted
          considered := acc.considered ++ [s % N]
          selected := acc.selected ++ [s % N] }
      refine ⟨lx, pc, ?_⟩
      rw [hih]
      simp only [List.filter_cons, h2, decide_True, if_true, List.map_cons,
        crossingFrom_cons, List.append_assoc, List.singleton_append]

/-- A channel pass with a positive display period runs to its end: it looks at the slots
in walk order, draws exactly the specification's window and leaves the crossing value of
that window as highlighted value. -/
theorem renderChannel_pass {F : Type} (N : Nat) (st : PlotState F) (c : Nat)
    (view_width p : Int) (display_period : Nat) (zero : F) (hD : 0 < display_period) :
    ∃ pass, renderChannel N st c view_width p display_period zero = some pass ∧
      pass.considered = walkSlots N st.sample_cursor ∧
      pass.selected = specWindow N st display_period ∧
      pass.highlighted =
        crossingValue p (nowOf N st) zero (windowSamples N st c view_width display_period) := by
  obtain ⟨lx, pc, h⟩ := renderLoop_eq N st c view_width p (nowOf N st)
    display_period hD N st.sample_cursor ⟨0, 0, zero, [], []⟩
  refine ⟨_, h, ?_, ?_, ?_⟩
  · simp [walkSlots]
  · simp [specWindow, walkSlots]
  · rfl

/-- A channel pass with a positive display period draws exactly the window and leaves
the crossing value of the window as highlighted value. -/
theorem renderChannel_crossing {F : Type} (N : Nat) (st : PlotState F) (c : Nat)
    (view_width mouse_x view_offset_x : Int) (display_period : Nat) (zero : F)
    (hD : 0 < display_period) :
    ∃ pass, renderChannel N st c view_width
        (clampMouse mouse_x view_offset_x view_width - view_offset_x) display_period zero =
          some pass ∧
      pass.selected = specWindow N st display_period ∧
      pass.highlighted =
        crossingValue (clampMouse mouse_x view_offset_x view_width - view_offset_x)
          (nowOf N st) zero (windowSamples N st c view_width display_period) := by
  obtain ⟨pass, h1, _, h3, h4⟩ := renderChannel_pass N st c view_width
    (clampMouse mouse_x view_offset_x view_width - view_offset_x) display_period zero hD
  exact ⟨pass, h1, h3, h4⟩

/-! ## The window of a pass -/

theorem walkSlots_perm (N c : Nat) : (walkSlots N c).Perm (List.range N) := by
  unfold walkSlots
  rw [walk_eq_rotate]
  exact List.rotate_perm _ _

/-- C5 (amended). For every buffer state of capacity `N`, every channel and every
duration `D > 0`, with `now` the timestamp in slot `(sample_cursor + N - 1) mod N`: the
channel pass of the render loop runs to its end, looks at each of the `N` slots exactly
once, in the order `sample_cursor, sample_cursor + 1, ...` modulo `N`, and the slots
that get past its filter are exactly those with `now - timestamp <= D` in 64-bit
unsigned arithmetic. -/
theorem window_filter {F : Type} (N : Nat) (st : PlotState F) (c : Nat)
    (view_width p : Int) (D : Nat) (zero : F) (hD : 0 < D) :
    ∃ pass, renderChannel N st c view_width p D zero = some pass ∧
      pass.considered.Perm (List.range N) ∧
      pass.considered = (List.range N).map (fun i => (st.sample_cursor + i) % N) ∧
      pass.selected = pass.considered.filter
        (fun si => decide (sub64 (st.sample_timestamp_buffer
          ((st.sample_cursor + N - 1) % N)) (st.sample_timestamp_buffer si) ≤ D)) ∧
      pass.selected.Nodup ∧
      (∀ si, si ∈ pass.selected ↔
        si < N ∧ sub64 (st.sample_timestamp_buffer ((st.sample_cursor + N - 1) % N))
          (st.sample_timestamp_buffer si) ≤ D) := by
  obtain ⟨pass, h1, h2, h3, _⟩ := renderChannel_pass N st c view_width p D zero hD
  refine ⟨pass, h1, ?_, ?_, ?_, ?_, ?_⟩
  · rw [h2]; exact walkSlots_perm N _
  · rw [h2]; rfl
  · rw [h3, h2]; rfl
  · rw [h3]
    exact ((walkSlots_perm N _).nodup_iff.2 (List.nodup_range N)).filter _
  · intro si
    rw [h3]
    simp only [specWindow, walkSlots, List.mem_filter, mem_walk N _, decide_eq_true_eq, nowOf]

/-! ## The window after sorted appends -/

/-- After any run of appends from cursor `0`, whatever the number of values of each: the
cursor is the number of appends modulo the capacity, and each of the last `N` appends is
in the slot of its number modulo `N`, with its timestamp and the values it committed. -/
theorem appendAll_commits {F : Type} (N : Nat) (hN : 0 < N) (st0 : PlotState F)
    (h0 : st0.sample_cursor = 0) (xs : List (Nat × List F)) :
    (appendAll N st0 xs).sample_cursor = xs.length % N ∧
      ∀ k x, xs[k]? = some x → xs.length ≤ k + N →
        sampleAt N x.2.length (appendAll N st0 xs) (k % N) = x := by
  induction xs using List.reverseRecOn with
  | nil =>
    refine ⟨by simp [appendAll, h0], ?_⟩
    intro k x hk
    simp at hk
  | append_singleton xs y ih =>
    obtain ⟨ihc, ihs⟩ := ih
    have hcur : (appendAll N st0 xs).sample_cursor < N := by
      rw [ihc]; exact Nat.mod_lt _ hN
    rw [appendAll_snoc]
    refine ⟨?_, ?_⟩
    · simp only [commitSample, ihc, List.length_append, List.length_singleton]
      rw [Nat.mod_add_mod]
    · intro k x hk hkN
      simp only [List.length_append, List.length_singleton] at hkN
      have hklt : k < xs.length + 1 := by
        by_contra hcon
        rw [List.getElem?_eq_none (by simp; omega)] at hk
        cases hk
      by_cases hlast : k = xs.length
      · subst hlast
        rw [List.getElem?_append_right (le_refl _)] at hk
        simp only [Nat.sub_self, List.getElem?_cons_zero, Option.some.injEq] at hk
        subst hk
        rw [← ihc]
        exact sampleAt_commit_cursor N _ hN _ _ _ rfl
      · have hk1 : k < xs.length := by omega
        have hne : k % N ≠ (appendAll N st0 xs).sample_cursor := by
          rw [ihc]
          intro heq
          have h1 : (xs.length - k) % N = 0 := Nat.sub_mod_eq_zero_of_mod_eq heq.symm
          have h2 : xs.length - k < N := by omega
          rw [Nat.mod_eq_of_lt h2] at h1
          omega
        rw [List.getElem?_append_left hk1] at hk
        rw [sampleAt_commit_other N _ _ _ _ _ (Nat.mod_lt _ hN) hcur hne]
        exact ihs k x hk (by omega)

/-- After at least `N` appends from cursor `0`, the walk from the write cursor reads the
last `N` appended samples in the order of their appends. -/
theorem walk_commits {F : Type} (N : Nat) (hN : 0 < N) (st0 : PlotState F)
    (h0 : st0.sample_cursor = 0) (xs : List (Nat × List F)) (hlen : N ≤ xs.length) :
    List.Forall₂ (fun si x => sampleAt N x.2.length (appendAll N st0 xs) si = x)
      (walkSlots N (appendAll N st0 xs).sample_cursor) (xs.drop (xs.length - N)) := by
  obtain ⟨hc, hs⟩ := appendAll_commits N hN st0 h0 xs
  apply List.forall₂_of_length_eq_of_get
  · simp only [walkSlots, List.length_map, List.length_range, List.length_drop]
    omega
  · intro i h1 h2
    simp only [walkSlots, List.length_map, List.length_range] at h1
    simp only [walkSlots, List.get_eq_getElem, List.getElem_map, List.getElem_range,
      List.getElem_drop]
    have h3 : N ≤ xs.length + i := by omega
    have h4 : (xs.length % N + i) % N = (xs.length - N + i) % N := by
      rw [Nat.mod_add_mod, show xs.length - N + i = (xs.length + i) - N by omega,
        ← Nat.mod_eq_sub_mod h3]
    rw [hc, h4]
    exact hs _ _ (List.getElem?_eq_getElem (by omega)) (by omega)

theorem forall₂_timestamps {F : Type} (N : Nat) (st : PlotState F) (l : List Nat)
    (ys : List (Nat × List F))
    (h : List.Forall₂ (fun si x => sampleAt N x.2.length st si = x) l ys) :
    l.map st.sample_timestamp_buffer = ys.map Prod.fst := by
  induction h with
  | nil => rfl
  | cons hxy _ ih =>
    simp only [List.map_cons, ih, List.cons.injEq, and_true]
    rw [← hxy]
    rfl

/-- The specification's window after at least `N` appends with non-decreasing timestamps:
it is sorted, ends at the latest slot, and is the walk minus its first slots. -/
theorem specWindow_order {F : Type} (N : Nat) (st0 : PlotState F)
    (xs : List (Nat × List F)) (D : Nat) (hN : 0 < N) (h0 : st0.sample_cursor = 0)
    (hlen : N ≤ xs.length) (hsorted : (xs.map Prod.fst).Pairwise (fun a b => a ≤ b))
    (hrange : ∀ x ∈ xs, x.1 < 2 ^ 64) :
    (specWindow N (appendAll N st0 xs) D).getLast? =
      some (((appendAll N st0 xs).sample_cursor + N - 1) % N) ∧
    ∃ k, k < N ∧
      specWindow N (appendAll N st0 xs) D =
        (walkSlots N (appendAll N st0 xs).sample_cursor).drop k := by
  have hw := walk_commits N hN st0 h0 xs hlen
  obtain ⟨hc, hs⟩ := appendAll_commits N hN st0 h0 xs
  generalize hst : appendAll N st0 xs = st at hw hc hs ⊢
  have hwts := forall₂_timestamps N st _ _ hw
  have hwsorted : (walkSlots N st.sample_cursor).Pairwise
      (fun a b => st.sample_timestamp_buffer a ≤ st.sample_timestamp_buffer b) := by
    rw [← List.pairwise_map, hwts]
    exact hsorted.sublist ((List.drop_sublist _ _).map _)
  -- now is the timestamp of the last append, the largest one
  have hlast : xs[xs.length - 1]? = some xs[xs.length - 1] :=
    List.getElem?_eq_getElem (by omega)
  have hlastslot := hs (xs.length - 1) _ hlast (by omega)
  rw [← latest_slot_eq N xs.length (by omega), ← hc] at hlastslot
  have hnoweq : nowOf N st = xs[xs.length - 1].1 := by
    rw [← hlastslot]
    rfl
  have hnow : ∀ x ∈ xs, x.1 ≤ nowOf N st ∧ nowOf N st < 2 ^ 64 := by
    intro x hx
    refine ⟨?_, by rw [hnoweq]; exact hrange _ (List.getElem_mem _)⟩
    rw [hnoweq]
    obtain ⟨i, hil, hi⟩ := List.getElem_of_mem hx
    by_cases hieq : i = xs.length - 1
    · subst hieq
      rw [← hi]
    · have hp := List.pairwise_iff_getElem.1 hsorted i (xs.length - 1) (by simpa using hil)
        (by simp; omega) (by omega)
      simp only [List.getElem_map] at hp
      rw [← hi]
      exact hp
  have hwnow : ∀ s ∈ walkSlots N st.sample_cursor,
      st.sample_timestamp_buffer s ≤ nowOf N st ∧ nowOf N st < 2 ^ 64 := by
    intro s hsm
    have : st.sample_timestamp_buffer s ∈
        (walkSlots N st.sample_cursor).map st.sample_timestamp_buffer :=
      List.mem_map_of_mem _ hsm
    rw [hwts] at this
    obtain ⟨x, hx, hxe⟩ := List.mem_map.1 this
    rw [← hxe]
    exact hnow x (List.mem_of_mem_drop hx)
  have hmono : (walkSlots N st.sample_cursor).Pairwise
      (fun a b =>
        decide (sub64 (nowOf N st) (st.sample_timestamp_buffer a) ≤ D) = true →
        decide (sub64 (nowOf N st) (st.sample_timestamp_buffer b) ≤ D) = true) := by
    refine hwsorted.imp_of_mem ?_
    intro a b ha hb hab
    have h1 := hwnow a ha
    have h2 := hwnow b hb
    simp only [decide_eq_true_eq, sub64_of_le h1.1 h1.2, sub64_of_le h2.1 h2.2]
    omega
  -- the latest slot ends the walk and is selected
  have hwalk : walkSlots N st.sample_cursor =
      (List.range (N - 1)).map (fun i => (st.sample_cursor + i) % N) ++
        [(st.sample_cursor + N - 1) % N] := by
    unfold walkSlots
    obtain ⟨m, rfl⟩ : ∃ m, N = m + 1 := ⟨N - 1, by omega⟩
    rw [List.range_succ, List.map_append]
    rfl
  have hsel : specWindow N st D =
      ((List.range (N - 1)).map (fun i => (st.sample_cursor + i) % N)).filter
        (fun si => decide (sub64 (nowOf N st) (st.sample_timestamp_buffer si) ≤ D)) ++
        [(st.sample_cursor + N - 1) % N] := by
    unfold specWindow
    rw [hwalk, List.filter_append]
    congr 1
    rw [List.filter_cons_of_pos]
    · rfl
    · simp only [nowOf, sub64_self, decide_eq_true_eq]
      omega
  obtain ⟨k, hk, hklt⟩ := filter_eq_drop_of_mono _ _ hmono
  refine ⟨?_, k, ?_, hk⟩
  · rw [hsel, List.getLast?_concat]
  · have := hklt (by
      have h := hsel
      unfold specWindow at h
      rw [h]
      simp)
    simpa [walkSlots] using this

/-- C9 (amended). After at least `N` appends with non-decreasing timestamps (from cursor
`0`, whatever the number of channel values of each), for every duration `D > 0` and in
every channel pass: the pass runs to its end, the slots it selects have non-decreasing
timestamps, the last selected slot is the latest slot `(sample_cursor + N - 1) mod N`,
and the selected slots are the walk with its first `k` slots dropped, holding the
timestamps and the committed values of the appended samples from number
`length - N + k` on: a contiguous suffix of the last `N` appended samples. -/
theorem window_order {F : Type} (N : Nat) (st0 : PlotState F)
    (xs : List (Nat × List F)) (c : Nat) (view_width p : Int) (D : Nat) (zero : F)
    (hN : 0 < N) (h0 : st0.sample_cursor = 0) (hlen : N ≤ xs.length)
    (hsorted : (xs.map Prod.fst).Pairwise (fun a b => a ≤ b))
    (hrange : ∀ x ∈ xs, x.1 < 2 ^ 64) (hD : 0 < D) :
    ∃ pass, renderChannel N (appendAll N st0 xs) c view_width p D zero = some pass ∧
      (pass.selected.map
        (appendAll N st0 xs).sample_timestamp_buffer).Pairwise (fun a b => a ≤ b) ∧
      pass.selected.getLast? = some (((appendAll N st0 xs).sample_cursor + N - 1) % N) ∧
      ∃ k, k < N ∧
        pass.selected = pass.considered.drop k ∧
        pass.selected.map (appendAll N st0 xs).sample_timestamp_buffer =
          (xs.drop (xs.length - N + k)).map Prod.fst ∧
        List.Forall₂ (fun si x => sampleAt N x.2.length (appendAll N st0 xs) si = x)
          pass.selected (xs.drop (xs.length - N + k)) := by
  obtain ⟨pass, hp, hcons, hsel, _⟩ := renderChannel_pass N (appendAll N st0 xs) c
    view_width p D zero hD
  obtain ⟨hlast, k, hk, hdrop⟩ := specWindow_order N st0 xs D hN h0 hlen hsorted hrange
  have hw := walk_commits N hN st0 h0 xs hlen
  have hf : List.Forall₂ (fun si x => sampleAt N x.2.length (appendAll N st0 xs) si = x)
      pass.selected (xs.drop (xs.length - N + k)) := by
    rw [hsel, hdrop, ← List.drop_drop]
    exact List.forall₂_drop k hw
  have hts := forall₂_timestamps N _ _ _ hf
  refine ⟨pass, hp, ?_, ?_, k, hk, ?_, hts, hf⟩
  · rw [hts]
    exact hsorted.sublist ((List.drop_sublist _ _).map _)
  · rw [hsel]; exact hlast
  · rw [hsel, hcons]; exact hdrop

/-! ## The round-trip scenario -/

theorem parseValues_map {F : Type} (conv : List Char → F) (n : Nat) (s : List Char) :
    parseValues conv n s = (parseValues (fun x => x) n s).map conv := by
  induction n generalizing s with
  | zero => rfl
  | succ n ih =>
    rw [parseValues, parseValues]
    split
    · rfl
    · simp only [List.map_cons]
      congr 1
      split
      · split
        · exact ih _
        · rfl
      · rfl

theorem parse_channel_data_map {F : Type} (conv : List Char → F) (data : List Char)
    (n : Nat) :
    parse_channel_data conv data n =
      ⟨(parse_channel_data (fun x => x) data n).timestamp,
        (parse_channel_data (fun x => x) data n).output.map conv⟩ := by
  unfold parse_channel_data
  simp only
  split
  · rfl
  · split
    · split
      · simp only [parseValues_map conv]
      · rfl
    · rfl

theorem roundTrip_eq {F : Type} (conv : List Char → F) (vb : Nat → F) (tb : Nat → Nat) :
    roundTrip conv vb tb =
      appendAll 3 ⟨vb, tb, 0⟩
        [(1000, [conv "1.0".toList, conv "2.0".toList]),
          (2000, [conv "1.5".toList, conv "2.5".toList]),
          (3000, [conv "2.0".toList, conv "3.0".toList])] := by
  have p1 : parse_channel_data conv "1000:1.0;2.0".toList 2 =
      ⟨1000, [conv "1.0".toList, conv "2.0".toList]⟩ := by
    rw [parse_channel_data_map]
    have h1 : (parse_channel_data (fun x => x) "1000:1.0;2.0".toList 2).timestamp = 1000 := by
      decide
    have h2 : (parse_channel_data (fun x => x) "1000:1.0;2.0".toList 2).output =
        ["1.0".toList, "2.0".toList] := by decide
    rw [h1, h2]
    rfl
  have p2 : parse_channel_data conv "2000:1.5;2.5".toList 2 =
      ⟨2000, [conv "1.5".toList, conv "2.5".toList]⟩ := by
    rw [parse_channel_data_map]
    have h1 : (parse_channel_data (fun x => x) "2000:1.5;2.5".toList 2).timestamp = 2000 := by
      decide
    have h2 : (parse_channel_data (fun x => x) "2000:1.5;2.5".toList 2).output =
        ["1.5".toList, "2.5".toList] := by decide
    rw [h1, h2]
    rfl
  have p3 : parse_channel_data conv "3000:2.0;3.0".toList 2 =
      ⟨3000, [conv "2.0".toList, conv "3.0".toList]⟩ := by
    rw [parse_channel_data_map]
    have h1 : (parse_channel_data (fun x => x) "3000:2.0;3.0".toList 2).timestamp = 3000 := by
      decide
    have h2 : (parse_channel_data (fun x => x) "3000:2.0;3.0".toList 2).output =
        ["2.0".toList, "3.0".toList] := by decide
    rw [h1, h2]
    rfl
  have l1 : ¬ "1000:1.0;2.0".toList.length = 0 := by decide
  have l2 : ¬ "2000:1.5;2.5".toList.length = 0 := by decide
  have l3 : ¬ "3000:2.0;3.0".toList.length = 0 := by decide
  simp only [roundTrip, roundTripRecords, ingestFrame, ingestStep, l1, l2, l3, if_false,
    Bool.false_eq_true, p1, p2, p3, appendAll, List.foldl, if_true]
  simp

theorem roundTrip_facts {F : Type} (conv : List Char → F) (vb : Nat → F) (tb : Nat → Nat) :
    (roundTrip conv vb tb).sample_cursor = 0 ∧
    (roundTrip conv vb tb).sample_timestamp_buffer 0 = 1000 ∧
    (roundTrip conv vb tb).sample_timestamp_buffer 1 = 2000 ∧
    (roundTrip conv vb tb).sample_timestamp_buffer 2 = 3000 := by
  rw [roundTrip_eq]
  simp [appendAll, commitSample, Function.update]

theorem roundTrip_values {F : Type} (conv : List Char → F) (vb : Nat → F) (tb : Nat → Nat) :
    (roundTrip conv vb tb).sample_value_buffer 0 = conv "1.0".toList ∧
    (roundTrip conv vb tb).sample_value_buffer 1 = conv "1.5".toList ∧
    (roundTrip conv vb tb).sample_value_buffer 2 = conv "2.0".toList := by
  rw [roundTrip_eq]
  simp [appendAll, commitSample, storeChannels, Function.update]

theorem roundTrip_selected {F : Type} (conv : List Char → F) (vb : Nat → F)
    (tb : Nat → Nat) (D : Nat) :
    specWindow 3 (roundTrip conv vb tb) D =
      [0, 1, 2].filter (fun si => decide (sub64 3000
        ((roundTrip conv vb tb).sample_timestamp_buffer si) ≤ D)) := by
  obtain ⟨hc, _, _, h2⟩ := roundTrip_facts conv vb tb
  unfold specWindow walkSlots
  simp only [nowOf, hc, h2, Nat.zero_add]
  rfl

theorem roundTrip_window_facts {F : Type} (conv : List Char → F) (vb : Nat → F)
    (tb : Nat → Nat) :
    nowOf 3 (roundTrip conv vb tb) = 3000 ∧
    (roundTrip conv vb tb).sample_cursor = 0 ∧
    specWindow 3 (roundTrip conv vb tb) 2000 = [0, 1, 2] ∧
    specWindow 3 (roundTrip conv vb tb) 1999 = [1, 2] := by
  obtain ⟨hc, h0, h1, h2⟩ := roundTrip_facts conv vb tb
  have e0 : sub64 3000 1000 = 2000 := by decide
  have e1 : sub64 3000 2000 = 1000 := by decide
  have e2 : sub64 3000 3000 = 0 := by decide
  refine ⟨?_, hc, ?_, ?_⟩
  · simp only [nowOf, hc]
    exact h2
  · rw [roundTrip_selected]
    simp [List.filter_cons, h0, h1, h2, e0, e1, e2]
  · rw [roundTrip_selected]
    simp [List.filter_cons, h0, h1, h2, e0, e1, e2]

/-- C6 (amended). After the three records of the round-trip scenario, with
`max_channels = 2`, capacity `3` and `display_period = 2000`: `now` is `3000` and the
window selected by the render loop (in every channel pass, whatever the viewport and the
pointer) holds the samples with timestamps `1000`, `2000` and `3000`, in this order; the
sample at `1000` is on the boundary `now - t = display_period` and is in the window. With
`display_period = 1999` the window holds `2000` and `3000` only. -/
theorem round_trip_window {F : Type} (conv : List Char → F) (vb : Nat → F)
    (tb : Nat → Nat) (c : Nat) (view_width p : Int) (zero : F) :
    nowOf 3 (roundTrip conv vb tb) = 3000 ∧
    (roundTrip conv vb tb).sample_cursor = 0 ∧
    (renderChannel 3 (roundTrip conv vb tb) c view_width p 2000 zero).map
      (fun q => q.selected) = some [0, 1, 2] ∧
    (renderChannel 3 (roundTrip conv vb tb) c view_width p 2000 zero).map
      (fun q => q.selected.map (roundTrip conv vb tb).sample_timestamp_buffer) =
        some [1000, 2000, 3000] ∧
    sampleAt 3 2 (roundTrip conv vb tb) 0 = (1000, [conv "1.0".toList, conv "2.0".toList]) ∧
    sampleAt 3 2 (roundTrip conv vb tb) 1 = (2000, [conv "1.5".toList, conv "2.5".toList]) ∧
    sampleAt 3 2 (roundTrip conv vb tb) 2 = (3000, [conv "2.0".toList, conv "3.0".toList]) ∧
    (renderChannel 3 (roundTrip conv vb tb) c view_width p 1999 zero).map
      (fun q => q.selected.map (roundTrip conv vb tb).sample_timestamp_buffer) =
        some [2000, 3000] := by
  obtain ⟨hnow, hc, hsel, hsel2⟩ := roundTrip_window_facts conv vb tb
  obtain ⟨_, h0, h1, h2⟩ := roundTrip_facts conv vb tb
  obtain ⟨pass, hp, _, hps, _⟩ := renderChannel_pass 3 (roundTrip conv vb tb) c view_width p
    2000 zero (by decide)
  obtain ⟨pass2, hp2, _, hps2, _⟩ := renderChannel_pass 3 (roundTrip conv vb tb) c
    view_width p 1999 zero (by decide)
  refine ⟨hnow, hc, ?_, ?_, rfl, rfl, rfl, ?_⟩
  · rw [hp, Option.map_some', hps, hsel]
  · rw [hp, Option.map_some', hps, hsel]
    simp [h0, h1, h2]
  · rw [hp2, Option.map_some', hps2, hsel2]
    simp [h1, h2]

theorem floatOfInt_small {n : Int} (h : n.natAbs < 2 ^ 24) : floatOfInt n = n := by
  unfold floatOfInt
  simp only [h, if_true]

theorem clampMouse_right (mouse_x view_offset_x view_width : Int) (hW : 0 ≤ view_width)
    (h : view_offset_x + view_width ≤ mouse_x) :
    clampMouse mouse_x view_offset_x view_width - view_offset_x = view_width := by
  unfold clampMouse
  simp only
  split_ifs <;> omega

theorem roundTrip_samples {F : Type} (conv : List Char → F) (vb : Nat → F) (tb : Nat → Nat)
    (W : Int) (hW0 : 0 ≤ W) (hW : W < 2 ^ 31) :
    windowSamples 3 (roundTrip conv vb tb) 0 W 2000 =
      [(0, 1000, conv "1.0".toList), (W - W / 2, 2000, conv "1.5".toList),
        (W, 3000, conv "2.0".toList)] := by
  obtain ⟨hnow, _, hsel, _⟩ := roundTrip_window_facts conv vb tb
  obtain ⟨_, h0, h1, h2⟩ := roundTrip_facts conv vb tb
  obtain ⟨v0, v1, v2⟩ := roundTrip_values conv vb tb
  have e0 : sub64 3000 1000 = 2000 := by decide
  have e1 : sub64 3000 2000 = 1000 := by decide
  have e2 : sub64 3000 3000 = 0 := by decide
  have x0 : xOf W 3000 1000 2000 = 0 := by
    unfold xOf
    rw [(xCoord_in_window W 3000 1000 2000 hW0 hW (by decide) (by rw [e0])
      (by rw [e0]; omega)).1, e0]
    simp only [Option.getD_some]
    omega
  have x1 : xOf W 3000 2000 2000 = W - W / 2 := by
    unfold xOf
    rw [(xCoord_in_window W 3000 2000 2000 hW0 hW (by decide) (by rw [e1]; decide)
      (by rw [e1]; omega)).1, e1]
    simp only [Option.getD_some]
    omega
  have x2 : xOf W 3000 3000 2000 = W := by
    unfold xOf
    rw [(xCoord_in_window W 3000 3000 2000 hW0 hW (by decide) (by rw [e2]; decide)
      (by rw [e2]; omega)).1, e2]
    simp
  unfold windowSamples
  rw [hsel, hnow]
  simp only [List.map_cons, List.map_nil, h0, h1, h2, x0, x1, x2, Nat.zero_mul, Nat.zero_add,
    v0, v1, v2]

/-- C7 (amended). For every channel, buffer and pointer column
`p = mouse_x - view_offset_x` with `mouse_x` clamped to the viewport, and
`display_period > 0`: the pass draws exactly the window, and its highlighted value is the
value of the last sample, in oldest-to-newest walk order, that crosses `p` (the sample
walked before it in the window, abscissa `0` before the first, is strictly left of `p`,
and the sample itself is at or right of `p` or carries the timestamp `now`); later
crossings overwrite earlier ones, and the value is `0` when no sample crosses. In the
round-trip scenario with the pointer at the right edge of a viewport at least `2` wide,
the channel-0 highlighted value is the one read from `2.0`. -/
theorem cursor_locator {F : Type} (N : Nat) (st : PlotState F) (c : Nat)
    (view_width mouse_x view_offset_x : Int) (display_period : Nat) (zero : F)
    (hD : 0 < display_period) :
    (∃ pass, renderChannel N st c view_width
        (clampMouse mouse_x view_offset_x view_width - view_offset_x) display_period zero =
          some pass ∧
      pass.selected = specWindow N st display_period ∧
      pass.highlighted =
        crossingValue (clampMouse mouse_x view_offset_x view_width - view_offset_x)
          (nowOf N st) zero (windowSamples N st c view_width display_period)) ∧
    (∀ (conv : List Char → F) (vb : Nat → F) (tb : Nat → Nat), 2 ≤ view_width →
      view_width < 2 ^ 24 → view_offset_x + view_width ≤ mouse_x →
      (renderChannel 3 (roundTrip conv vb tb) 0 view_width
        (clampMouse mouse_x view_offset_x view_width - view_offset_x) 2000 zero).map
          (fun q => q.highlighted) = some (conv "2.0".toList)) := by
  refine ⟨renderChannel_crossing N st c view_width mouse_x view_offset_x display_period
    zero hD, ?_⟩
  intro conv vb tb hW2 hW24 hmouse
  obtain ⟨pass, hp, _, hh⟩ := renderChannel_crossing 3 (roundTrip conv vb tb) 0 view_width
    mouse_x view_offset_x 2000 zero (by decide)
  rw [hp, Option.map_some', hh, clampMouse_right _ _ _ (by omega) hmouse,
    roundTrip_samples conv vb tb view_width (by omega) (by omega),
    (roundTrip_window_facts conv vb tb).1]
  have f0 : floatOfInt 0 = 0 := floatOfInt_small (by decide)
  have fW : floatOfInt view_width = view_width := floatOfInt_small (by omega)
  have f1 : floatOfInt (view_width - view_width / 2) = view_width - view_width / 2 :=
    floatOfInt_small (by omega)
  have c0 : ¬ ((0 : Int) < view_width ∧ ((0 : Int) ≥ view_width ∨ (1000 : Nat) = 3000)) := by
    omega
  have c1 : ¬ ((0 : Int) < view_width ∧
      (view_width - view_width / 2 ≥ view_width ∨ (2000 : Nat) = 3000)) := by
    omega
  have c2 : view_width - view_width / 2 < view_width ∧
      (view_width ≥ view_width ∨ (3000 : Nat) = 3000) := by
    omega
  simp only [crossingValue, crossingFrom_cons, crossingFrom_nil, f0, fW, f1, c0, c1, c2,
    if_false, if_true]
  simp

/-! ## The scenarios -/

/-- C1, as stated, fails: a timestamp that fits in 64 bits but not in 63 is not returned;
`strtoll` stops at `LLONG_MAX`. -/
theorem parse_timestamp_saturates :
    digitsValue "9223372036854775808".toList < 2 ^ 64 ∧
    (parse_channel_data (fun s => s) "9223372036854775808:1.0".toList 1).timestamp =
      9223372036854775807 ∧
    (parse_channel_data (fun s => s) "9223372036854775808:1.0".toList 1).timestamp ≠
      digitsValue "9223372036854775808".toList := by
  decide

/-- The record `1000:1.0;2.0` read with `max_channels = 1`: one value is returned. -/
theorem parse_wellformed_record_witness :
    (parse_channel_data (fun s => s)
      (recordText "1000".toList
        [⟨[], ['1'], some ['0'], none⟩, ⟨[], ['2'], some ['0'], none⟩] []) 1).output_count =
      min 2 1 :=
  (parse_wellformed_record (fun s => s) 1 "1000".toList
    [⟨[], ['1'], some ['0'], none⟩, ⟨[], ['2'], some ['0'], none⟩] []
    (by decide) (by decide) (by decide) (by decide) (Or.inl rfl)).2.1

/-- C2. Every malformed input (no `:` in it, a token before the first `:` that is not an
integer, or nothing but white space after the first `:`) gives the output count `0`. -/
theorem parse_malformed {F : Type} (conv : List Char → F) (data : List Char)
    (max_channels : Nat) (h : isMalformed data = true) :
    (parse_channel_data conv data max_channels).output_count = 0 :=
  parse_malformed_count conv data max_channels h

/-- The inputs `abc:1.0`, `12abc:1.0`, `5:` and `5` are malformed and give the count `0`. -/
theorem parse_malformed_witness :
    (parse_channel_data (fun s => s) "abc:1.0".toList 2).output_count = 0 ∧
    (parse_channel_data (fun s => s) "12abc:1.0".toList 2).output_count = 0 ∧
    (parse_channel_data (fun s => s) "5:".toList 2).output_count = 0 ∧
    (parse_channel_data (fun s => s) "5".toList 2).output_count = 0 :=
  ⟨parse_malformed _ _ 2 (by decide), parse_malformed _ _ 2 (by decide),
    parse_malformed _ _ 2 (by decide), parse_malformed _ _ 2 (by decide)⟩

/-- C3 at the failing input: the malformed record `12abc:1.0` has the output count `0`,
and yet the running ingestion step stores the timestamp `12` at the write cursor,
advances the cursor and lets the frame go on. -/
theorem ingest_malformed_commits :
    isMalformed "12abc:1.0".toList = true ∧
    (parse_channel_data (fun s => s) "12abc:1.0".toList 2).output_count = 0 ∧
    (ingestStep (fun s => s) 3 2 false emptyState "12abc:1.0".toList).2 = true ∧
    (ingestStep (fun s => s) 3 2 false emptyState "12abc:1.0".toList).1.sample_cursor = 1 ∧
    (ingestStep (fun s => s) 3 2 false emptyState
      "12abc:1.0".toList).1.sample_timestamp_buffer 0 = 12 ∧
    emptyState.sample_cursor = 0 ∧ emptyState.sample_timestamp_buffer 0 = 0 := by
  decide

/-- The record `abc:1.0` is rejected: the state is unchanged and the frame stops. -/
theorem ingest_rejects_abc {F : Type} (conv : List Char → F) (N max_channels : Nat)
    (st : PlotState F) :
    ingestStep conv N max_channels false st "abc:1.0".toList = (st, false) := by
  rfl

/-- Appending three samples to a buffer of capacity `2`. -/
theorem ring_buffer_appends_witness :
    (appendAll 2 zeroState [(10, [1]), (20, [2]), (30, [3])]).sample_cursor = 3 % 2 ∧
    [(10, [1]), (20, [2]), (30, [3])][2 + 1 - 1]? =
      some (sampleAt 2 1 (appendAll 2 zeroState [(10, [1]), (20, [2]), (30, [3])])
        (((appendAll 2 zeroState [(10, [1]), (20, [2]), (30, [3])]).sample_cursor
          + 2 - 1) % 2)) :=
  ⟨(ring_buffer_appends 2 1 zeroState [(10, [1]), (20, [2]), (30, [3])]
      (by decide) rfl (by decide)).2.1,
    ((ring_buffer_appends 2 1 zeroState [(10, [1]), (20, [2]), (30, [3])]
      (by decide) rfl (by decide)).2.2.2.2 1 rfl).2.1⟩

/-- C6, as stated, fails: in the round-trip scenario the sample with timestamp `1000` is
in the window, because `3000 - 1000 = 2000` is not above the display period. -/
theorem round_trip_window_has_1000 :
    nowOf 3 (roundTrip (fun s => s) (fun _ => []) (fun _ => 0)) = 3000 ∧
    (renderChannel 3 (roundTrip (fun s => s) (fun _ => []) (fun _ => 0)) 0 980 0 2000 []).map
      (fun q => q.selected.map
        (roundTrip (fun s => s) (fun _ => []) (fun _ => 0)).sample_timestamp_buffer) =
        some [1000, 2000, 3000] ∧
    (renderChannel 3 (roundTrip (fun s => s) (fun _ => []) (fun _ => 0)) 0 980 0 2000 []).map
      (fun q => q.selected.map
        (roundTrip (fun s => s) (fun _ => []) (fun _ => 0)).sample_timestamp_buffer) ≠
        some [2000, 3000] := by
  decide

/-- C5, as stated, fails at `display_period = 0`: on a buffer of capacity `3` filled with
zeros, slot `0` gets past the filter (`0 - 0 > 0` is false) and the division of line 240
traps, so no pass looks at each of the three slots once. -/
theorem window_filter_zero_period :
    sub64 (nowOf 3 emptyState) (emptyState.sample_timestamp_buffer 0) ≤ 0 ∧
    renderChannel 3 emptyState 0 980 0 0 [] = none ∧
    ¬ ∃ pass, renderChannel 3 emptyState 0 980 0 0 [] = some pass ∧
      pass.considered.Perm (List.range 3) := by
  have h0 : renderChannel 3 emptyState 0 980 0 0 [] = none :=
    renderChannel_zero_period 3 emptyState 0 980 0 [] (by decide)
  refine ⟨by decide, h0, ?_⟩
  rintro ⟨pass, h, _⟩
  rw [h0] at h
  cases h

/-- The round-trip buffer with `display_period = 2000`: the pass of channel `0` looks at
the three slots once each and selects them all. -/
theorem window_filter_witness :
    ∃ pass, renderChannel 3 (roundTrip (fun s => s) (fun _ => []) (fun _ => 0)) 0 980 0
        2000 [] = some pass ∧
      pass.considered.Perm (List.range 3) ∧
      pass.considered = (List.range 3).map
        (fun i => ((roundTrip (fun s => s) (fun _ => []) (fun _ => 0)).sample_cursor + i) % 3) :=
  (window_filter 3 (roundTrip (fun s => s) (fun _ => []) (fun _ => 0)) 0 980 0 2000 []
    (by decide)).imp (fun _ h => ⟨h.1, h.2.1, h.2.2.1⟩)

/-- C9, as stated, fails at `display_period = 0`: after the appends with timestamps `7`,
`9`, `9` into a buffer of capacity `3`, slot `1` gets past the filter and the division of
line 240 traps before the latest slot `2` is reached. -/
theorem window_order_zero_period :
    (appendAll 3 zeroState [(7, [1]), (9, [2]), (9, [3])]).sample_cursor = 0 ∧
    sub64 (nowOf 3 (appendAll 3 zeroState [(7, [1]), (9, [2]), (9, [3])]))
      ((appendAll 3 zeroState [(7, [1]), (9, [2]), (9, [3])]).sample_timestamp_buffer 0) > 0 ∧
    sub64 (nowOf 3 (appendAll 3 zeroState [(7, [1]), (9, [2]), (9, [3])]))
      ((appendAll 3 zeroState [(7, [1]), (9, [2]), (9, [3])]).sample_timestamp_buffer 1) ≤ 0 ∧
    renderChannel 3 (appendAll 3 zeroState [(7, [1]), (9, [2]), (9, [3])]) 0 980 0 0 0 =
      none ∧
    ¬ ∃ pass, renderChannel 3 (appendAll 3 zeroState [(7, [1]), (9, [2]), (9, [3])])
        0 980 0 0 0 = some pass ∧
      pass.selected.getLast? = some 2 := by
  have h0 : renderChannel 3 (appendAll 3 zeroState [(7, [1]), (9, [2]), (9, [3])])
      0 980 0 0 0 = none :=
    renderChannel_zero_period 3 _ 0 980 0 0 (by decide)
  refine ⟨by decide, by decide, by decide, h0, ?_⟩
  rintro ⟨pass, h, _⟩
  rw [h0] at h
  cases h

/-- C7, as stated, fails: in the round-trip scenario with the pointer at column `400` of
a viewport `980` wide, the last sample at or left of the pointer is the one at column `0`
(value `1.0`), and the loop highlights the one at column `490` (value `1.5`). -/
theorem cursor_locator_not_last_left :
    (windowSamples 3 (roundTrip (fun s => s) (fun _ => []) (fun _ => 0)) 0 980 2000).map
      (fun s => s.1) = [0, 490, 980] ∧
    clampMouse 410 10 980 - 10 = 400 ∧
    lastAtOrLeft 400 [] (windowSamples 3 (roundTrip (fun s => s) (fun _ => []) (fun _ => 0))
      0 980 2000) = "1.0".toList ∧
    (renderChannel 3 (roundTrip (fun s => s) (fun _ => []) (fun _ => 0)) 0 980
      (clampMouse 410 10 980 - 10) 2000 []).map (fun q => q.highlighted) =
        some "1.5".toList := by
  decide

/-- The round-trip scenario in a viewport `980` wide with the pointer at the right edge:
the pass draws the three samples and the channel-0 highlighted value is the one read
from `2.0`. -/
theorem cursor_locator_witness :
    (∃ pass, renderChannel 3 (roundTrip (fun s => s) (fun _ => []) (fun _ => 0)) 0 980
        (clampMouse 2000 10 980 - 10) 2000 [] = some pass ∧
      pass.selected = specWindow 3 (roundTrip (fun s => s) (fun _ => []) (fun _ => 0))
        2000) ∧
    (renderChannel 3 (roundTrip (fun s => s) (fun _ => []) (fun _ => 0)) 0 980
      (clampMouse 2000 10 980 - 10) 2000 []).map (fun q => q.highlighted) =
        some "2.0".toList :=
  ⟨(cursor_locator 3 (roundTrip (fun s => s) (fun _ => []) (fun _ => 0)) 0 980 2000 10
      2000 [] (by decide)).1.imp (fun _ h => ⟨h.1, h.2.1⟩),
    (cursor_locator 3 (roundTrip (fun s => s) (fun _ => []) (fun _ => 0)) 0 980 2000 10
      2000 [] (by decide)).2 (fun s => s) (fun _ => []) (fun _ => 0) (by decide)
      (by decide) (by decide)⟩

/-- C8, as stated, fails: with the bounds `0` and `3.3f` and `view_height = 2 ^ 24 + 1`
a sample with `value = value_lower` maps to `y = 2 ^ 24`, because `view_height` is
rounded when it is converted to `float`; and with the bounds `-3e38f` and `3e38f` the
difference of the bounds overflows, the quotient is a NaN and a sample with
`value = value_upper` has no ordinate. -/
theorem coordinate_edges_rounding :
    F32.eq (.num false 13841203 (-22)) (.zero false) = false ∧
    yCoord (.zero false) (.zero false) (.num false 13841203 (-22)) 16777217 =
      some 16777216 ∧
    yCoord (.zero false) (.zero false) (.num false 13841203 (-22)) 16777217 ≠
      some 16777217 ∧
    F32.eq (.num false 14791142 104) (.num true 14791142 104) = false ∧
    F32.sub (.num false 14791142 104) (.num true 14791142 104) = .inf false ∧
    yCoord (.num false 14791142 104) (.num true 14791142 104) (.num false 14791142 104)
      730 = none := by
  decide

/-- The default bounds `0` and `3.3f` in a viewport `980` wide and `730` high: `now`
maps to the right edge, the upper bound to `0` and the lower bound to `730`. -/
theorem coordinate_edges_witness :
    xCoord 980 3000 3000 2000 = some 980 ∧
    yCoord (.num false 13841203 (-22)) (.zero false) (.num false 13841203 (-22)) 730 =
      some 0 ∧
    yCoord (.zero false) (.zero false) (.num false 13841203 (-22)) 730 = some 730 :=
  ⟨(coordinate_edges 980 730 3000 2000 (.zero false) (.num false 13841203 (-22))
      (by decide) (by decide) (by decide) (by decide) (by decide) (by decide) (by decide)
      (by decide) (by decide) (by decide)).1,
    (coordinate_edges 980 730 3000 2000 (.zero false) (.num false 13841203 (-22))
      (by decide) (by decide) (by decide) (by decide) (by decide) (by decide) (by decide)
      (by decide) (by decide) (by decide)).2.1 (by decide),
    (coordinate_edges 980 730 3000 2000 (.zero false) (.num false 13841203 (-22))
      (by decide) (by decide) (by decide) (by decide) (by decide) (by decide) (by decide)
      (by decide) (by decide) (by decide)).2.2.2 (by decide) (by decide)⟩

/-- Three sorted appends into a buffer of capacity `2`, the second of them with one
value where the others have two, and a window of duration `10`. -/
theorem window_order_witness :
    ∃ pass, renderChannel 2 (appendAll 2 zeroState [(10, [1, 1]), (20, [2]), (30, [3, 3])])
        0 980 0 10 0 = some pass ∧
      pass.selected.getLast? =
        some (((appendAll 2 zeroState [(10, [1, 1]), (20, [2]), (30, [3, 3])]).sample_cursor
          + 2 - 1) % 2) :=
  (window_order 2 zeroState [(10, [1, 1]), (20, [2]), (30, [3, 3])] 0 980 0 10 0 (by decide)
    rfl (by decide) (by decide) (by decide) (by decide)).imp (fun _ h => ⟨h.1, h.2.2.1⟩)

/-- A viewport `980` wide at `now = 3000`: the sample at `2000` is inside it. -/
theorem x_coordinate_bounds_witness :
    ∃ x, xCoord 980 3000 2000 2000 = some x ∧ 0 ≤ x ∧ x ≤ 980 :=
  (x_coordinate_bounds 980 3000 (by decide) (by decide)).1 2000 2000 (by decide)
    (by decide) (by decide)

end Plotty
